import Mathlib

/-!
Verification development for the RexResearch crawler (`run_crawler.py`).

The Python program crawls a static HTML index page, classifies anchors into
content-entry links (`is_invention_link` / `extract_invention_links`),
extracts a structured record from each detail page
(`extract_invention_content` and its sub-extractors), and writes one text
file per record with an embedded JSON metadata block
(`save_invention_file`).

This file gives a shallow embedding of that logic.  Parsed HTML documents
are modelled as a flat structure exposing the same views the code queries
through BeautifulSoup (`find_all('a')`, `find('title')`, `get_text`,
`find_all('img')`, heading/sibling structure, `find_all('p')`).  Python
strings are Lean `String`s; `str.lower`, `str.strip`, `str.isdigit` and the
regular expressions of the source are modelled over ASCII, which covers
every pattern constant appearing in the program.  Functions are kept
executable (structural or fuel-based recursion, no well-founded `fix`), so
concrete runs reduce inside the kernel.
-/

/-! ## Python string primitives -/

/-- The character class `\s` of Python's `re` module, and the set stripped
by `str.strip()`, restricted to ASCII. -/
def isPySpace (c : Char) : Bool :=
  c = ' ' || c = '\t' || c = '\n' || c = '\r' || c = '\x0b' || c = '\x0c'

/-- ASCII decimal digit, the class `\d`. -/
def isDigitA (c : Char) : Bool := '0' ≤ c && c ≤ '9'

/-- ASCII letter. -/
def isAlphaA (c : Char) : Bool := ('a' ≤ c && c ≤ 'z') || ('A' ≤ c && c ≤ 'Z')

/-- ASCII lower-casing of one character, the model of `str.lower`. -/
def lowerChar (c : Char) : Char :=
  if 'A' ≤ c && c ≤ 'Z' then Char.ofNat (c.toNat + 32) else c

/-- Model of Python `str.lower()` (ASCII). -/
def strLower (s : String) : String := ⟨s.data.map lowerChar⟩

/-- Model of Python `str.strip()` (ASCII whitespace). -/
def pyStrip (s : String) : String :=
  ⟨((s.data.dropWhile isPySpace).reverse.dropWhile isPySpace).reverse⟩

/-- Substring test used by Python's `in` operator: does `pat` occur
contiguously in the haystack list? -/
def infixAux (pat : List Char) : List Char → Bool
  | [] => pat.isEmpty
  | c :: cs => pat.isPrefixOf (c :: cs) || infixAux pat cs

/-- Model of Python `pat in s` for strings. -/
def containsSub (s pat : String) : Bool := infixAux pat.data s.data

/-- Model of Python `s.startswith(p)`. -/
def strStartsWith (s p : String) : Bool := p.data.isPrefixOf s.data

/-- Model of Python `s.endswith(p)`. -/
def strEndsWith (s p : String) : Bool := p.data.isSuffixOf s.data

/-- Model of Python `s.isdigit()` (ASCII digits; empty string is false). -/
def pyIsDigit (s : String) : Bool := !s.data.isEmpty && s.data.all isDigitA

/-- One fuel-counted step list for `str.replace`: replace every
non-overlapping occurrence of `pat` by `rep`, scanning left to right.
`fuel` bounds the number of scanning steps; `input.length` is always
enough because each step consumes at least one character (all patterns
used in the program are non-empty). -/
def replaceSubF (pat rep : List Char) : Nat → List Char → List Char
  | 0, l => l
  | _, [] => []
  | fuel + 1, c :: cs =>
    if pat.isPrefixOf (c :: cs) then
      rep ++ replaceSubF pat rep fuel ((c :: cs).drop pat.length)
    else
      c :: replaceSubF pat rep fuel cs

/-- Model of Python `s.replace(pat, rep)` for non-empty `pat`. -/
def pyReplace (s pat rep : String) : String :=
  ⟨replaceSubF pat.data rep.data s.data.length s.data⟩

/-! ## `clean_text` (run_crawler.py lines 215-232)

The source decodes six HTML entities, then applies
`re.sub(r'\s+', ' ', text)`, then `re.sub(r'\n\s*\n', '\n\n', text)`,
then `str.strip`. -/

/-- The entity-decoding pass of `clean_text`: the six `str.replace` calls,
in source order. -/
def entityDecode (s : String) : String :=
  pyReplace (pyReplace (pyReplace (pyReplace (pyReplace (pyReplace
    s "&nbsp;" " ") "&amp;" "&") "&lt;" "<") "&gt;" ">")
    "&quot;" "\"") "&apos;" ⟨['\'']⟩

/-- Model of `re.sub(r'\s+', ' ', text)`: every maximal run of whitespace
becomes one space (the run's last character emits the space). -/
def collapseWs : List Char → List Char
  | [] => []
  | [c] => if isPySpace c then [' '] else [c]
  | c :: c' :: cs =>
    if isPySpace c then
      if isPySpace c' then collapseWs (c' :: cs)
      else ' ' :: collapseWs (c' :: cs)
    else c :: collapseWs (c' :: cs)

/-- For `re.sub(r'\n\s*\n', '\n\n', text)`: given the characters after an
opening `'\n'`, the index of the closing `'\n'` chosen by a greedy `\s*`
with backtracking — the largest `i` below the length of the leading
whitespace run with `l[i] = '\n'`. -/
def nlCloseIdx (l : List Char) : Option Nat :=
  let m := (l.takeWhile isPySpace).length
  (List.range m).reverse.find? (fun i => l.get? i = some '\n')

/-- Fuel-counted model of `re.sub(r'\n\s*\n', '\n\n', text)`: leftmost
matches, continuing after each replacement.  `fuel = input.length` is
sufficient since every step consumes at least one character. -/
def subNlF : Nat → List Char → List Char
  | 0, l => l
  | _, [] => []
  | fuel + 1, c :: cs =>
    if c = '\n' then
      match nlCloseIdx cs with
      | some k => '\n' :: '\n' :: subNlF fuel (cs.drop (k + 1))
      | none => c :: subNlF fuel cs
    else c :: subNlF fuel cs

/-- `RexResearchCrawler.clean_text`: entity decoding, whitespace collapse,
the (dead, see `claim_C3` below) paragraph-break rule, final strip. -/
def clean_text (s : String) : String :=
  let t1 := (entityDecode s).data
  let t2 := collapseWs t1
  pyStrip ⟨subNlF t2.length t2⟩

/-! ## `urllib.parse.urljoin` (used at run_crawler.py lines 136 and 336)

Model of CPython's `urljoin`/`urlsplit`/`urlunsplit` restricted to the
scheme, netloc and path components.  Query strings, fragments and params
are folded into the path (anchors containing `#` never reach `urljoin`,
and no claim depends on `?`/`;` splitting). -/

/-- Accumulating scan for a URL scheme: the characters before the first
`':'` when they form `alpha (alpha|digit|+|-|.)*`.  Returns the
lower-cased scheme and the text after the colon. -/
def schemeSplitAux (acc : List Char) : List Char → Option (List Char × List Char)
  | [] => none
  | c :: r =>
    if c = ':' then some (acc.reverse.map lowerChar, r)
    else if isAlphaA c || isDigitA c || c = '+' || c = '-' || c = '.' then
      schemeSplitAux (c :: acc) r
    else none

/-- Split off a scheme, as `urlsplit` does. -/
def schemeSplit : List Char → Option (List Char × List Char)
  | [] => none
  | c :: r => if isAlphaA c then schemeSplitAux [c] r else none

/-- Does the string begin with a URL scheme? -/
def hasSchemeB (s : String) : Bool := (schemeSplit s.data).isSome

/-- After a leading `"//"`, the netloc runs to the next `'/'` (CPython also
stops at `?` and `#`, elided here). -/
def netlocSplit (u : List Char) : List Char × List Char :=
  (u.takeWhile (fun c => c ≠ '/'), u.dropWhile (fun c => c ≠ '/'))

/-- Scheme, netloc and path of a parsed URL. -/
structure UrlParts where
  scheme : String
  netloc : String
  path : String
deriving DecidableEq, Repr

/-- Model of `urlparse(u, default_scheme)` (scheme/netloc/path components). -/
def urlparseWith (dscheme : String) (u : String) : UrlParts :=
  let (sch, rest) :=
    match schemeSplit u.data with
    | some (s, r) => ((⟨s⟩ : String), r)
    | none => (dscheme, u.data)
  if rest.take 2 = ['/', '/'] then
    let (nl, p) := netlocSplit (rest.drop 2)
    ⟨sch, ⟨nl⟩, ⟨p⟩⟩
  else ⟨sch, "", ⟨rest⟩⟩

/-- CPython `urllib.parse.uses_relative`. -/
def uses_relative : List String :=
  ["", "ftp", "http", "gopher", "nntp", "imap", "wais", "file", "https",
   "shttp", "mms", "prospero", "rtsp", "rtspu", "sftp", "svn", "svn+ssh",
   "ws", "wss"]

/-- CPython `urllib.parse.uses_netloc`. -/
def uses_netloc : List String :=
  ["", "ftp", "http", "gopher", "nntp", "telnet", "imap", "wais", "file",
   "mms", "https", "shttp", "snews", "prospero", "rtsp", "rtspu", "rsync",
   "svn", "svn+ssh", "sftp", "nfs", "git", "git+ssh", "ws", "wss"]

/-- Python `path.split('/')`. -/
def splitSlash : List Char → List (List Char)
  | [] => [[]]
  | c :: cs =>
    match splitSlash cs with
    | [] => [[]]
    | g :: gs => if c = '/' then [] :: g :: gs else (c :: g) :: gs

/-- Python `'/'.join(segments)`. -/
def joinSlash : List (List Char) → List Char
  | [] => []
  | [g] => g
  | g :: gs => g ++ '/' :: joinSlash gs

/-- `segments[1:-1] = filter(None, segments[1:-1])`: drop empty interior
segments, keeping the first and last. -/
def filterMiddle : List (List Char) → List (List Char)
  | [] => []
  | [a] => [a]
  | a :: b :: rest =>
    a :: (((b :: rest).dropLast).filter (fun g => g ≠ [])) ++
      [(b :: rest).getLast (List.cons_ne_nil _ _)]

/-- The `'.'`/`'..'` resolution loop of `urljoin`. -/
def resolveSegs (acc : List (List Char)) : List (List Char) → List (List Char)
  | [] => acc
  | seg :: rest =>
    if seg = ['.', '.'] then resolveSegs acc.dropLast rest
    else if seg = ['.'] then resolveSegs acc rest
    else resolveSegs (acc ++ [seg]) rest

/-- Model of `urlunsplit((scheme, netloc, path, '', ''))`. -/
def urlunparse3 (scheme netloc : String) (path : List Char) : String :=
  let url1 : List Char :=
    if netloc ≠ "" || path.take 2 = ['/', '/'] then
      let u2 := if path ≠ [] && path.head? ≠ some '/' then '/' :: path else path
      '/' :: '/' :: (netloc.data ++ u2)
    else path
  if scheme ≠ "" then ⟨scheme.data ++ ':' :: url1⟩ else ⟨url1⟩

/-- Model of `urllib.parse.urljoin(base, url)` on the scheme/netloc/path
components, following CPython's control flow. -/
def urljoin_gen (base url : String) : String :=
  if base = "" then url
  else if url = "" then base
  else
    let b := urlparseWith "" base
    let r := urlparseWith b.scheme url
    if r.scheme ≠ b.scheme || !(uses_relative.any (fun s => s = r.scheme)) then url
    else
      let inNetloc := uses_netloc.any (fun s => s = r.scheme)
      if inNetloc && r.netloc ≠ "" then urlunparse3 r.scheme r.netloc r.path.data
      else
        let netloc := if inNetloc then b.netloc else r.netloc
        if r.path = "" then urlunparse3 r.scheme netloc b.path.data
        else
          let base_parts0 := splitSlash b.path.data
          let base_parts :=
            match base_parts0.getLast? with
            | some g => if g ≠ [] then base_parts0.dropLast else base_parts0
            | none => base_parts0
          let segments :=
            if r.path.data.head? = some '/' then splitSlash r.path.data
            else filterMiddle (base_parts ++ splitSlash r.path.data)
          let resolved := resolveSegs [] segments
          let resolved2 :=
            if segments.getLast? = some ['.'] || segments.getLast? = some ['.', '.'] then
              resolved ++ [[]]
            else resolved
          let path1 := joinSlash resolved2
          let path2 := if path1 = [] then ['/'] else path1
          urlunparse3 r.scheme netloc path2

/-- `RexResearchCrawler.base_domain`. -/
def base_domain : String := "https://www.rexresearch.com"

/-! ## Document model

A parsed HTML document, exposing exactly the views the crawler queries
through BeautifulSoup.  `anchors` is `soup.find_all('a', href=True)`;
each anchor carries its `href` attribute and the list of its text nodes
(so that both `get_text()` and `get_text(strip=True)` are expressible).
`textNodes` are the document's visible text nodes in order, feeding
`soup.get_text(separator='\n', strip=True)`.  `body` is the flat sibling
sequence scanned by `extract_structured_sections` (headings `h1`-`h6` and
their sibling elements).  `paragraphs` is `soup.find_all('p')` (each
entry the paragraph's `get_text()`), and `imgs` is `soup.find_all('img')`
with the `src`, `alt` and `title` attributes (missing attributes are the
empty string, as with `img.get(..., '')`). -/

/-- An `<a href=...>` element. -/
structure Anchor where
  href : String
  texts : List String
deriving DecidableEq, Repr

/-- An `<img>` element. -/
structure Img where
  src : String
  alt : String
  title : String
deriving DecidableEq, Repr

/-- One node of the flat body view: a heading `h1`-`h6`, or any other
sibling element with its text. -/
inductive BNode where
  | heading (lvl : Nat) (txt : String)
  | elem (txt : String)
deriving DecidableEq, Repr

/-- A parsed document. -/
structure Doc where
  titleTag : Option String := none
  metaDescTag : Option (Option String) := none
  anchors : List Anchor := []
  textNodes : List String := []
  body : List BNode := []
  paragraphs : List String := []
  imgs : List Img := []
deriving DecidableEq, Repr

/-- `a.get_text()` — concatenation of the anchor's text nodes. -/
def aText (a : Anchor) : String := String.join a.texts

/-- `a.get_text(strip=True)` — each node stripped, empties dropped,
concatenated. -/
def aTextStripped (a : Anchor) : String :=
  String.join ((a.texts.map pyStrip).filter (fun t => t ≠ ""))

/-- `soup.get_text(separator='\n', strip=True)` — the raw page text handed
to `clean_text` and to `extract_patent_info`. -/
def page_full_text (doc : Doc) : String :=
  String.intercalate "\n" ((doc.textNodes.map pyStrip).filter (fun t => t ≠ ""))

/-! ## Link classifier (run_crawler.py lines 120-213) -/

/-- `exclude_patterns` of `is_invention_link`. -/
def exclude_patterns : List String :=
  ["javascript:", "mailto:", "#", "http://", "https://",
   "index.html", "home.html", "about.html", "contact.html",
   "search.html", "links.html", "disclaimer.html"]

/-- `exclude_texts` of `is_invention_link`. -/
def exclude_texts : List String :=
  ["home", "back", "top", "index", "search", "contact",
   "about", "links", "disclaimer", "rexresearch",
   "inventor index", "subject index"]

/-- `RexResearchCrawler.is_invention_link`. -/
def is_invention_link (href text : String) : Bool :=
  let href_lower := strLower href
  let text_lower := strLower text
  if exclude_patterns.any (fun p => containsSub href_lower p) then false
  else if exclude_texts.any (fun p => containsSub text_lower p) then false
  else
    strEndsWith href ".html" &&
    decide (2 < text.length) &&
    !pyIsDigit text &&
    !strStartsWith text "[" &&
    !strStartsWith text "(" &&
    decide (text.length < 200)

/-- Keyword table of `get_link_category`. -/
def energy_keywords : List String :=
  ["energy", "power", "electric", "magnetic", "battery", "fuel", "solar", "generator"]

/-- Keyword table of `get_link_category`. -/
def medical_keywords : List String :=
  ["medical", "health", "therapy", "healing", "cure", "treatment"]

/-- Keyword table of `get_link_category`. -/
def transport_keywords : List String :=
  ["car", "vehicle", "engine", "motor", "aviation", "aircraft"]

/-- `RexResearchCrawler.get_link_category`. -/
def get_link_category (text : String) : String :=
  let tl := strLower text
  if energy_keywords.any (fun k => containsSub tl k) then "energy"
  else if medical_keywords.any (fun k => containsSub tl k) then "medical"
  else if transport_keywords.any (fun k => containsSub tl k) then "transport"
  else "general"

/-- The dictionary built for each accepted anchor in
`extract_invention_links`. -/
structure EntryLink where
  name : String
  url : String
  href : String
  category : String
deriving DecidableEq, Repr

/-- The entry built from an anchor once accepted. -/
def mkEntry (a : Anchor) : EntryLink :=
  let href := pyStrip a.href
  let text := aTextStripped a
  ⟨text, urljoin_gen base_domain href, href, get_link_category text⟩

/-- The loop body of `extract_invention_links`, before URL deduplication:
anchors with empty stripped `href` or empty stripped text are skipped,
the rest pass through `is_invention_link`. -/
def invention_links_raw (doc : Doc) : List EntryLink :=
  doc.anchors.filterMap (fun a =>
    let href := pyStrip a.href
    let text := aTextStripped a
    if href ≠ "" && text ≠ "" then
      if is_invention_link href text then some (mkEntry a) else none
    else none)

/-- First-occurrence URL deduplication (`seen_urls` set plus ordered list). -/
def dedupByUrlAux (seen : List String) : List EntryLink → List EntryLink
  | [] => []
  | l :: rest =>
    if seen.any (fun u => u = l.url) then dedupByUrlAux seen rest
    else l :: dedupByUrlAux (l.url :: seen) rest

/-- `RexResearchCrawler.extract_invention_links`. -/
def extract_invention_links (doc : Doc) : List EntryLink :=
  dedupByUrlAux [] (invention_links_raw doc)

/-! ## Record model (the `invention_data` dictionary) -/

/-- The `img_info` dictionary built in `extract_images_and_diagrams`
(dict key `type` is field `itype`). -/
structure ImageRef where
  url : String
  filename : String
  alt_text : String
  title : String
  itype : String
deriving DecidableEq, Repr

/-- A reference entry of `extract_references`. -/
structure RefLink where
  url : String
  text : String
deriving DecidableEq, Repr

/-- The `invention_data` dictionary.  `meta_description` is `none` when the
dict key is absent (it is only inserted when a description meta tag is
found).  `structured_sections` is an insertion-ordered dictionary. -/
structure Record where
  name : String
  url : String
  extracted_at : String
  title : String
  description : String
  principle : String
  technical_details : List String
  patents : List String
  images : List ImageRef
  diagrams : List ImageRef
  references : List RefLink
  full_content : String
  structured_sections : List (String × List String)
  meta_description : Option String
deriving DecidableEq, Repr

/-- The dictionary initialised at the top of `extract_invention_content`
(run_crawler.py lines 236-250). -/
def init_record (name url ts : String) : Record :=
  { name := name, url := url, extracted_at := ts, title := "",
    description := "", principle := "", technical_details := [],
    patents := [], images := [], diagrams := [], references := [],
    full_content := "", structured_sections := [], meta_description := none }

/-! ## Structured sections (run_crawler.py lines 288-324) -/

/-- The sibling walk after a heading: texts of following elements up to the
next heading, cleaned, kept when non-empty and longer than 10 characters. -/
def sectionContent : List BNode → List String
  | [] => []
  | BNode.heading _ _ :: _ => []
  | BNode.elem t :: rest =>
    let c := clean_text t
    (if c ≠ "" && decide (10 < c.length) then [c] else []) ++ sectionContent rest

/-- Python dict assignment `sections[k] = v`: replace the value in place if
the key is present (keeping its position), else append.  Dicts built here
always have distinct keys, so replacing the first occurrence is the dict
semantics. -/
def upsert : List (String × List String) → String → List String → List (String × List String)
  | [], k, v => [(k, v)]
  | p :: m, k, v => if p.1 = k then (k, v) :: m else p :: upsert m k v

/-- Dict lookup. -/
def dictGet : List (String × List String) → String → Option (List String)
  | [], _ => none
  | p :: m, k => if p.1 = k then some p.2 else dictGet m k

/-- The heading loop of `extract_structured_sections`: headings with empty
cleaned text are skipped, and a heading's content list is stored only when
non-empty. -/
def sectionsAux (acc : List (String × List String)) : List BNode → List (String × List String)
  | [] => acc
  | BNode.heading _ t :: rest =>
    let ht := clean_text t
    if ht ≠ "" then
      let content := sectionContent rest
      sectionsAux (if content ≠ [] then upsert acc ht content else acc) rest
    else sectionsAux acc rest
  | BNode.elem _ :: rest => sectionsAux acc rest

/-- The `sections` dictionary of `extract_structured_sections`. -/
def extract_structured_sections_map (body : List BNode) : List (String × List String) :=
  sectionsAux [] body

/-- The `tech_details` list of `extract_structured_sections`: cleaned
paragraph texts that are non-empty and longer than 50 characters. -/
def techDetailsOf (paragraphs : List String) : List String :=
  (paragraphs.map clean_text).filter (fun t => t ≠ "" && decide (50 < t.length))

/-! ## Images and diagrams (run_crawler.py lines 326-365) -/

/-- `os.path.basename` (POSIX separator; the claims do not depend on the
Windows drive/backslash cases). -/
def basename (s : String) : String :=
  ⟨(s.data.reverse.takeWhile (fun c => c ≠ '/')).reverse⟩

/-- Keyword table of `classify_image_type`. -/
def diagram_keywords : List String :=
  ["diagram", "schematic", "circuit", "blueprint", "plan", "design"]

/-- Keyword table of `classify_image_type`. -/
def photo_keywords : List String := ["photo", "picture", "image"]

/-- `RexResearchCrawler.classify_image_type`. -/
def classify_image_type (filename alt_text : String) : String :=
  let f := strLower filename
  let a := strLower alt_text
  if diagram_keywords.any (fun k => containsSub f k || containsSub a k) then "diagram"
  else if photo_keywords.any (fun k => containsSub f k || containsSub a k) then "photo"
  else "image"

/-- The `img_info` dictionary for one `<img>`. -/
def mkImgRef (base_url : String) (im : Img) : ImageRef :=
  let fn := basename im.src
  { url := urljoin_gen base_url im.src, filename := fn,
    alt_text := clean_text im.alt, title := clean_text im.title,
    itype := classify_image_type fn im.alt }

/-- The routing loop of `extract_images_and_diagrams`: images with an empty
`src` are skipped; a `diagram` classification goes to `diagrams`, anything
else to `images`. -/
def routeImgs (base_url : String) : List Img → Record → Record
  | [], r => r
  | im :: rest, r =>
    if im.src ≠ "" then
      let info := mkImgRef base_url im
      routeImgs base_url rest
        (if info.itype = "diagram" then { r with diagrams := r.diagrams ++ [info] }
         else { r with images := r.images ++ [info] })
    else routeImgs base_url rest r

/-! ## Patent extraction (run_crawler.py lines 367-384)

The four patterns all end in the same capture group
`(\d{1,2}[,.\s]?\d{3}[,.\s]?\d{3})`; the code runs `re.findall` with
`re.IGNORECASE`, strips `[,.\s]` from each capture and keeps results of
length at least 6.  The matchers below hand-compile the four regexes.
Greedy quantifier choices are encoded as ordered alternatives
(`Option.orElse`); `\s*`/`\s+` never need to backtrack in these patterns
because each is followed by a token (letter, `#`, or digit) that no
whitespace character can satisfy. -/

/-- The separator class `[,.\s]`. -/
def isSep (c : Char) : Bool := c = ',' || c = '.' || isPySpace c

/-- Exactly `n` ASCII digits; returns them and the rest. -/
def takeDigits : Nat → List Char → Option (List Char × List Char)
  | 0, l => some ([], l)
  | _ + 1, [] => none
  | n + 1, c :: cs =>
    if isDigitA c then
      match takeDigits n cs with
      | some (d, r) => some (c :: d, r)
      | none => none
    else none

/-- `[,.\s]?` with an explicit present/absent choice. -/
def takeSep (present : Bool) (l : List Char) : Option (List Char × List Char) :=
  if present then
    match l with
    | c :: cs => if isSep c then some ([c], cs) else none
    | [] => none
  else some ([], l)

/-- One fully determined alternative of the capture group
`\d{d1}[,.\s]{s1}\d{3}[,.\s]{s2}\d{3}`. -/
def tryShape (d1 : Nat) (s1 s2 : Bool) (l : List Char) : Option (List Char × List Char) := do
  let (a, l1) ← takeDigits d1 l
  let (b, l2) ← takeSep s1 l1
  let (c, l3) ← takeDigits 3 l2
  let (d, l4) ← takeSep s2 l3
  let (e, l5) ← takeDigits 3 l4
  some (a ++ b ++ c ++ d ++ e, l5)

/-- The capture group `(\d{1,2}[,.\s]?\d{3}[,.\s]?\d{3})`, alternatives in
greedy backtracking order. -/
def matchGroup (l : List Char) : Option (List Char × List Char) :=
  tryShape 2 true true l <|> tryShape 2 true false l <|>
  tryShape 2 false true l <|> tryShape 2 false false l <|>
  tryShape 1 true true l <|> tryShape 1 true false l <|>
  tryShape 1 false true l <|> tryShape 1 false false l

/-- Case-insensitive literal (for `re.IGNORECASE`). -/
def litCI (lit : List Char) (l : List Char) : Option (List Char) :=
  match lit, l with
  | [], rest => some rest
  | _ :: _, [] => none
  | a :: as', c :: cs => if lowerChar c = lowerChar a then litCI as' cs else none

/-- `\s*` (maximal munch, see the section comment). -/
def wsStar (l : List Char) : List Char := l.dropWhile isPySpace

/-- `\s+` (at least one whitespace character, then maximal munch). -/
def wsPlus : List Char → Option (List Char)
  | [] => none
  | c :: cs => if isPySpace c then some (cs.dropWhile isPySpace) else none

/-- A single required character. -/
def charLit (ch : Char) : List Char → Option (List Char)
  | [] => none
  | c :: cs => if c = ch then some cs else none

/-- `No\.?\s*` followed by the capture group (the optional `\.` tried
present-first). -/
def pat1no (l : List Char) : Option (List Char × List Char) := do
  let l1 ← litCI ['n', 'o'] l
  (do let l2 ← charLit '.' l1; matchGroup (wsStar l2)) <|> matchGroup (wsStar l1)

/-- `Patent\s+(?:No\.?\s*)?` followed by the capture group. -/
def pat1core (l : List Char) : Option (List Char × List Char) := do
  let l1 ← litCI ['p', 'a', 't', 'e', 'n', 't'] l
  let l2 ← wsPlus l1
  pat1no l2 <|> matchGroup l2

/-- Pattern 1: `(?:US\s*)?Patent\s+(?:No\.?\s*)?(group)`. -/
def matchPat1 (l : List Char) : Option (List Char × List Char) :=
  (do let l1 ← litCI ['u', 's'] l; pat1core (wsStar l1)) <|> pat1core l

/-- Pattern 2: `U\.S\.\s*Patent\s+(group)`. -/
def matchPat2 (l : List Char) : Option (List Char × List Char) := do
  let l1 ← litCI ['u', '.', 's', '.'] l
  let l2 ← litCI ['p', 'a', 't', 'e', 'n', 't'] (wsStar l1)
  let l3 ← wsPlus l2
  matchGroup l3

/-- Pattern 3: `Patent\s+#\s*(group)`. -/
def matchPat3 (l : List Char) : Option (List Char × List Char) := do
  let l1 ← litCI ['p', 'a', 't', 'e', 'n', 't'] l
  let l2 ← wsPlus l1
  let l3 ← charLit '#' l2
  matchGroup (wsStar l3)

/-- Pattern 4: `Pat\.\s*No\.\s*(group)`. -/
def matchPat4 (l : List Char) : Option (List Char × List Char) := do
  let l1 ← litCI ['p', 'a', 't', '.'] l
  let l2 ← litCI ['n', 'o', '.'] (wsStar l1)
  matchGroup (wsStar l2)

/-- Fuel-counted `re.findall` scan: leftmost non-overlapping matches,
resuming after each match.  `fuel = input.length` is enough because every
pattern above consumes at least one character per match and the scan
otherwise advances one character per step. -/
def findAllF (pat : List Char → Option (List Char × List Char)) :
    Nat → List Char → List (List Char)
  | 0, _ => []
  | _ + 1, [] => []
  | fuel + 1, c :: cs =>
    match pat (c :: cs) with
    | some (cap, rest) => cap :: findAllF pat fuel rest
    | none => findAllF pat fuel cs

/-- `re.findall(pattern, text, re.IGNORECASE)` over the whole text. -/
def findAllIn (pat : List Char → Option (List Char × List Char)) (text : String) :
    List (List Char) :=
  findAllF pat text.data.length text.data

/-- `re.sub(r'[,.\s]', '', match)`. -/
def removeSeps (l : List Char) : List Char := l.filter (fun c => !isSep c)

/-- First-occurrence deduplication for strings (the Python `set` of
`extract_patent_info`, materialised as a duplicate-free list; the member
set is what the code determines — `list(set)` order is unspecified). -/
def dedupStrAux (seen : List String) : List String → List String
  | [] => []
  | x :: xs =>
    if seen.any (fun y => y = x) then dedupStrAux seen xs
    else x :: dedupStrAux (x :: seen) xs

/-- `RexResearchCrawler.extract_patent_info`: run the four patterns over
the raw page text, strip separators, keep captures of length at least 6,
deduplicate. -/
def extract_patent_info (text : String) : List String :=
  let caps :=
    findAllIn matchPat1 text ++ findAllIn matchPat2 text ++
    findAllIn matchPat3 text ++ findAllIn matchPat4 text
  let cleaned := (caps.map removeSeps).filterMap (fun l =>
    if decide (6 ≤ l.length) then some (⟨l⟩ : String) else none)
  dedupStrAux [] cleaned

/-! ## References and technical principle (run_crawler.py lines 386-428) -/

/-- `RexResearchCrawler.extract_references`: anchors whose raw `href`
starts with `http`, paired with cleaned text; both must be non-empty. -/
def referencesOf (anchors : List Anchor) : List RefLink :=
  anchors.filterMap (fun a =>
    let href := a.href
    let text := clean_text (aText a)
    if href ≠ "" && text ≠ "" && strStartsWith href "http" then
      some ⟨href, text⟩
    else none)

/-- `principle_keywords` of `extract_technical_principle`. -/
def principle_keywords : List String :=
  ["principle", "theory", "mechanism", "operation", "working",
   "function", "process", "method", "technique", "approach"]

/-- Does a technical-detail block contain a principle keyword
(case-insensitively)? -/
def keywordHit (b : String) : Bool :=
  principle_keywords.any (fun k => containsSub (strLower b) k)

/-! ## The per-step pipeline of `extract_invention_content`
(run_crawler.py lines 234-286)

The `try` block runs eight statements in order; `except Exception` catches
any error, logs, and returns the partially filled dictionary.  Each
statement is one `Record → Record` step below, and a run that raises in
the `k`-th statement (0-based) is modelled by executing only the first `k`
steps (`extract_invention_content_faulty`). -/

/-- Step 0: page title (wrapped in `clean_text`). -/
def step_title (doc : Doc) (r : Record) : Record :=
  match doc.titleTag with
  | some t => { r with title := clean_text t }
  | none => r

/-- Step 1: description meta tag; the key is only inserted when the tag is
found, and the `content` attribute defaults to the empty string. -/
def step_meta (doc : Doc) (r : Record) : Record :=
  match doc.metaDescTag with
  | some c => { r with meta_description := some (c.getD "") }
  | none => r

/-- Step 2: `full_content` — the cleaned page text. -/
def step_full_content (doc : Doc) (r : Record) : Record :=
  { r with full_content := clean_text (page_full_text doc) }

/-- Step 3: structured sections and the technical-detail paragraph pool. -/
def step_sections (doc : Doc) (r : Record) : Record :=
  { r with structured_sections := extract_structured_sections_map doc.body,
           technical_details := techDetailsOf doc.paragraphs }

/-- Step 4: image/diagram routing. -/
def step_images (doc : Doc) (base_url : String) (r : Record) : Record :=
  routeImgs base_url doc.imgs r

/-- Step 5: patents, extracted from the raw (uncleaned) page text. -/
def step_patents (doc : Doc) (r : Record) : Record :=
  { r with patents := extract_patent_info (page_full_text doc) }

/-- Step 6: references. -/
def step_references (doc : Doc) (r : Record) : Record :=
  { r with references := referencesOf doc.anchors }

/-- Step 7: `extract_technical_principle` — scan the technical-detail pool
for keyword blocks; first three matches joined by a blank line, else the
first block becomes the description. -/
def step_principle (r : Record) : Record :=
  let paragraphs := r.technical_details
  let pp := paragraphs.filter keywordHit
  if pp ≠ [] then { r with principle := String.intercalate "\n\n" (pp.take 3) }
  else
    match paragraphs with
    | p0 :: _ => { r with description := p0 }
    | [] => r

/-- The eight statements of the `try` block, in source order. -/
def extract_steps (doc : Doc) (url : String) : List (Record → Record) :=
  [step_title doc, step_meta doc, step_full_content doc, step_sections doc,
   step_images doc url, step_patents doc, step_references doc, step_principle]

/-- Run a list of steps over a record. -/
def run_steps (steps : List (Record → Record)) (r : Record) : Record :=
  steps.foldl (fun r s => s r) r

/-- `RexResearchCrawler.extract_invention_content` on the non-raising path:
all eight statements execute. -/
def extract_invention_content (doc : Doc) (url name ts : String) : Record :=
  run_steps (extract_steps doc url) (init_record name url ts)

/-- `extract_invention_content` when the `k`-th statement (0-based) of the
`try` block raises: the first `k` steps have executed, the exception is
caught, and the dictionary is returned as is.  `k ≥ 8` is the non-raising
run. -/
def extract_invention_content_faulty (doc : Doc) (url name ts : String) (k : Nat) : Record :=
  run_steps ((extract_steps doc url).take k) (init_record name url ts)

/-! ## The embedded metadata block (run_crawler.py lines 542-555)

`save_invention_file` ends each output file with
`json.dumps(metadata, indent=2, ensure_ascii=False)` over the mapping
`{name, title, url, patents, image_count, diagram_count,
reference_count, extracted_at}`.  The renderer below reproduces that
byte layout; the parser is a whitespace-insensitive reader for the same
JSON subset (strings with full escape handling, naturals, string
arrays). -/

/-- Lower-case hexadecimal digit. -/
def hexDigit (n : Nat) : Char :=
  if n < 10 then Char.ofNat (48 + n) else Char.ofNat (87 + n)

/-- `json.dumps` escaping of one character with `ensure_ascii=False`. -/
def escChar (c : Char) : List Char :=
  if c = '"' then ['\\', '"']
  else if c = '\\' then ['\\', '\\']
  else if c = '\n' then ['\\', 'n']
  else if c = '\t' then ['\\', 't']
  else if c = '\r' then ['\\', 'r']
  else if c = '\x08' then ['\\', 'b']
  else if c = '\x0c' then ['\\', 'f']
  else if c.toNat < 32 then
    ['\\', 'u', '0', '0', hexDigit (c.toNat / 16), hexDigit (c.toNat % 16)]
  else [c]

/-- Escape a character list. -/
def escList : List Char → List Char
  | [] => []
  | c :: cs => escChar c ++ escList cs

/-- A JSON string literal. -/
def jsonStr (s : String) : List Char := '"' :: escList s.data ++ ['"']

/-- Decimal digits of a natural number (fuel-counted; `n + 1` steps always
suffice). -/
def natDigitsAux : Nat → Nat → List Char
  | 0, _ => []
  | fuel + 1, n =>
    if n < 10 then [Char.ofNat (48 + n)]
    else natDigitsAux fuel (n / 10) ++ [Char.ofNat (48 + n % 10)]

/-- Decimal rendering of a natural number. -/
def renderNat (n : Nat) : List Char := natDigitsAux (n + 1) n

/-- Interleave a separator between list elements. -/
def intercalateL (sep : List Char) : List (List Char) → List Char
  | [] => []
  | [x] => x
  | x :: xs => x ++ sep ++ intercalateL sep xs

/-- The `",\n    "` separator between array items at `indent=2`, depth 2. -/
def itemsSep : List Char := [',', '\n', ' ', ' ', ' ', ' ']

/-- The `patents` array as laid out by `json.dumps(..., indent=2)`. -/
def renderPatents (ps : List String) : List Char :=
  match ps with
  | [] => ['[', ']']
  | _ =>
    '[' :: '\n' :: ' ' :: ' ' :: ' ' :: ' ' ::
      (intercalateL itemsSep (ps.map jsonStr)) ++ ['\n', ' ', ' ', ']']

/-- The `'"key": '` fragment. -/
def kvFrag (k : String) : List Char := jsonStr k ++ [':', ' ']

/-- The `',\n  '` separator between top-level members at `indent=2`. -/
def memberSep : List Char := [',', '\n', ' ', ' ']

/-- The metadata block of `save_invention_file`, byte for byte as produced
by `json.dumps(metadata, indent=2, ensure_ascii=False)`. -/
def renderMetadata (r : Record) : String :=
  ⟨'\x7b' :: '\n' :: ' ' :: ' ' :: kvFrag "name" ++ jsonStr r.name ++
    memberSep ++ kvFrag "title" ++ jsonStr r.title ++
    memberSep ++ kvFrag "url" ++ jsonStr r.url ++
    memberSep ++ kvFrag "patents" ++ renderPatents r.patents ++
    memberSep ++ kvFrag "image_count" ++ renderNat r.images.length ++
    memberSep ++ kvFrag "diagram_count" ++ renderNat r.diagrams.length ++
    memberSep ++ kvFrag "reference_count" ++ renderNat r.references.length ++
    memberSep ++ kvFrag "extracted_at" ++ jsonStr r.extracted_at ++
    ['\n', '\x7d']⟩

/-- JSON insignificant whitespace. -/
def jsonWs (c : Char) : Bool := c = ' ' || c = '\t' || c = '\n' || c = '\r'

/-- Skip insignificant whitespace. -/
def skipWs (l : List Char) : List Char := l.dropWhile jsonWs

/-- Value of one hexadecimal digit. -/
def hexVal (c : Char) : Option Nat :=
  if '0' ≤ c && c ≤ '9' then some (c.toNat - 48)
  else if 'a' ≤ c && c ≤ 'f' then some (c.toNat - 87)
  else if 'A' ≤ c && c ≤ 'F' then some (c.toNat - 55)
  else none

/-- JSON string body reader (after the opening quote), with escape
handling. -/
def jstrAux (acc : List Char) : List Char → Option (String × List Char)
  | [] => none
  | c :: r =>
    if c = '"' then some (⟨acc.reverse⟩, r)
    else if c = '\\' then
      match r with
      | [] => none
      | e :: r2 =>
        if e = 'n' then jstrAux ('\n' :: acc) r2
        else if e = 't' then jstrAux ('\t' :: acc) r2
        else if e = 'r' then jstrAux ('\r' :: acc) r2
        else if e = 'b' then jstrAux ('\x08' :: acc) r2
        else if e = 'f' then jstrAux ('\x0c' :: acc) r2
        else if e = '"' then jstrAux ('"' :: acc) r2
        else if e = '\\' then jstrAux ('\\' :: acc) r2
        else if e = '/' then jstrAux ('/' :: acc) r2
        else if e = 'u' then
          match r2 with
          | a :: b :: c2 :: d :: r3 =>
            match hexVal a, hexVal b, hexVal c2, hexVal d with
            | some x, some y, some z, some w =>
              jstrAux (Char.ofNat (((x * 16 + y) * 16 + z) * 16 + w) :: acc) r3
            | _, _, _, _ => none
          | _ => none
        else none
    else jstrAux (c :: acc) r

/-- A JSON string literal. -/
def parseJString : List Char → Option (String × List Char)
  | [] => none
  | c :: r => if c = '"' then jstrAux [] r else none

/-- Value of a non-empty digit string. -/
def digitsVal (ds : List Char) : Nat :=
  ds.foldl (fun a c => a * 10 + (c.toNat - 48)) 0

/-- A JSON natural number (maximal digit run). -/
def parseJNat (l : List Char) : Option (Nat × List Char) :=
  let ds := l.takeWhile isDigitA
  if ds.isEmpty then none else some (digitsVal ds, l.dropWhile isDigitA)

/-- Expect one specific character (after whitespace). -/
def expectC (ch : Char) (l : List Char) : Option (List Char) :=
  match skipWs l with
  | c :: r => if c = ch then some r else none
  | [] => none

/-- `"key":` — a known object key followed by a colon; returns the input
positioned at the value. -/
def parseKeyed (key : String) (l : List Char) : Option (List Char) := do
  let (k, r) ← parseJString (skipWs l)
  if k = key then expectC ':' r else none

/-- Items of a non-empty JSON string array (fuel-counted; the fuel only
needs to exceed the number of items). -/
def parseItems : Nat → List Char → Option (List String × List Char)
  | 0, _ => none
  | fuel + 1, l => do
    let (s, r) ← parseJString l
    match skipWs r with
    | c :: r2 =>
      if c = ',' then
        match parseItems fuel (skipWs r2) with
        | some (ss, r3) => some (s :: ss, r3)
        | none => none
      else if c = ']' then some ([s], r2)
      else none
    | [] => none

/-- A JSON array of strings. -/
def parseStrArray (l : List Char) : Option (List String × List Char) := do
  let r ← expectC '[' l
  match skipWs r with
  | c :: r2 =>
    if c = ']' then some ([], r2)
    else parseItems (skipWs r).length (skipWs r)
  | [] => none

/-- One `"key": "string value",` member. -/
def parseStrField (key : String) (l : List Char) : Option (String × List Char) := do
  let r ← parseKeyed key l
  let (v, r2) ← parseJString (skipWs r)
  let r3 ← expectC ',' r2
  some (v, r3)

/-- One `"key": nat,` member. -/
def parseNatField (key : String) (l : List Char) : Option (Nat × List Char) := do
  let r ← parseKeyed key l
  let (v, r2) ← parseJNat (skipWs r)
  let r3 ← expectC ',' r2
  some (v, r3)

/-- One `"key": [strings],` member. -/
def parseArrField (key : String) (l : List Char) : Option (List String × List Char) := do
  let r ← parseKeyed key l
  let (v, r2) ← parseStrArray (skipWs r)
  let r3 ← expectC ',' r2
  some (v, r3)

/-- Parse the metadata object back: name, title, url, patents, the three
counts and the timestamp, in the fixed key order written by
`save_invention_file`. -/
def parseMetadata (s : String) :
    Option (String × String × String × List String × Nat × Nat × Nat × String) :=
  match expectC '\x7b' s.data with
  | none => none
  | some l0 =>
  match parseStrField "name" l0 with
  | none => none
  | some (name, l1) =>
  match parseStrField "title" l1 with
  | none => none
  | some (title, l2) =>
  match parseStrField "url" l2 with
  | none => none
  | some (url, l3) =>
  match parseArrField "patents" l3 with
  | none => none
  | some (patents, l4) =>
  match parseNatField "image_count" l4 with
  | none => none
  | some (ic, l5) =>
  match parseNatField "diagram_count" l5 with
  | none => none
  | some (dc, l6) =>
  match parseNatField "reference_count" l6 with
  | none => none
  | some (rc, l7) =>
  match parseKeyed "extracted_at" l7 with
  | none => none
  | some l8 =>
  match parseJString (skipWs l8) with
  | none => none
  | some (ts, l9) =>
  match expectC '\x7d' l9 with
  | none => none
  | some l10 =>
  if (skipWs l10).isEmpty then some (name, title, url, patents, ic, dc, rc, ts)
  else none

/-! ## Claim-side characterisations and concrete test documents -/

/-- Specification-side reading of the href/text exclusion rules: none of
the given substrings occurs. -/
def containsNone (s : String) (pats : List String) : Prop :=
  ∀ p ∈ pats, containsSub s p = false

/-- Is this image classified as a diagram? -/
def isDiagramImg (im : Img) : Bool :=
  classify_image_type (basename im.src) im.alt = "diagram"

/-- The image refs routed to `images`: non-empty `src`, not a diagram. -/
def imagesOf (base_url : String) (imgs : List Img) : List ImageRef :=
  (imgs.filter (fun im => im.src ≠ "" && !isDiagramImg im)).map (mkImgRef base_url)

/-- The image refs routed to `diagrams`: non-empty `src`, diagram. -/
def diagramsOf (base_url : String) (imgs : List Img) : List ImageRef :=
  (imgs.filter (fun im => im.src ≠ "" && isDiagramImg im)).map (mkImgRef base_url)

/-- All image refs for `<img>` elements with a non-empty `src`. -/
def keptImgs (base_url : String) (imgs : List Img) : List ImageRef :=
  (imgs.filter (fun im => im.src ≠ "")).map (mkImgRef base_url)

/-- Specification-side view for the structured-section claim: the content
lists of every heading occurrence whose cleaned text equals `h` (non-empty,
as required for insertion) and whose sibling walk yields at least one
qualifying fragment, in document order. -/
def headingContents (body : List BNode) (h : String) : List (List String) :=
  match body with
  | [] => []
  | BNode.heading _ t :: rest =>
    (if clean_text t = h ∧ clean_text t ≠ "" ∧ sectionContent rest ≠ []
     then [sectionContent rest] else []) ++ headingContents rest h
  | BNode.elem _ :: rest => headingContents rest h

/-- Concrete index anchor: a plausible content entry. -/
def ancC1 : Anchor := ⟨"device1.html", ["Cold Fusion Device"]⟩

/-- Concrete index document for the classifier witness. -/
def docC1 : Doc := { anchors := [ancC1] }

/-- Concrete detail document for the fault-tolerance witness. -/
def docC2 : Doc := { titleTag := some "A Title", textNodes := ["Some body text"] }

/-- Concrete detail document whose raw text contains a paragraph break. -/
def docC3 : Doc := { textNodes := ["First paragraph.\n\nSecond paragraph."] }

/-- Concrete detail document carrying a patent reference (the scenario of
the specification). -/
def docC4 : Doc := { textNodes := ["US Patent No. 5,123,456 describes the device"] }

/-- Concrete detail document with one principle-bearing paragraph. -/
def docC6 : Doc :=
  { paragraphs :=
      ["The operating principle of this device is resonance and the method works well."] }

/-- Concrete detail document with a double-spaced title and an untrimmed
meta description. -/
def docC7 : Doc := { titleTag := some "Free  Energy", metaDescTag := some (some " A device. ") }

/-- Concrete index document with a protocol-relative anchor. -/
def docC8 : Doc := { anchors := [⟨"//evil.example/a.html", ["Cold Fusion Device"]⟩] }

/-- Concrete index document with an ordinary relative anchor. -/
def docW8 : Doc := { anchors := [⟨"coldfusion.html", ["Cold Fusion Device"]⟩] }

/-- The entry link produced from `docW8`. -/
def entW8 : EntryLink := mkEntry ⟨"coldfusion.html", ["Cold Fusion Device"]⟩

/-- Concrete record exercising the metadata round trip, with characters
that need JSON escaping. -/
def recC9 : Record :=
  { init_record "Quote \" and backslash \\ and newline \n entry"
      "https://www.rexresearch.com/q.html" "2024-01-01T00:00:00" with
    title := "A \t tabbed title",
    patents := ["5123456", "7000001"],
    images := [⟨"u", "f", "", "", "image"⟩],
    references := [⟨"http://a", "a"⟩, ⟨"http://b", "b"⟩] }

/-! # Theorems -/

/-- A list is a prefix of itself followed by anything. -/
lemma isPrefixOf_append_self (a b : List Char) : a.isPrefixOf (a ++ b) = true := by
  rw [List.isPrefixOf_iff_prefix]
  exact List.prefix_append a b

/-- `strStartsWith` from a data-level decomposition. -/
lemma strStartsWith_of_data_append {s p : String} {t : List Char}
    (h : s.data = p.data ++ t) : strStartsWith s p = true := by
  unfold strStartsWith
  rw [h]
  exact isPrefixOf_append_self _ _

/-- `step_title` in record-update form. -/
lemma step_title_eq (doc : Doc) (r : Record) :
    step_title doc r =
      { r with title := match doc.titleTag with | some t => clean_text t | none => r.title } := by
  cases h : doc.titleTag <;> simp [step_title, h]

/-- `step_meta` in record-update form. -/
lemma step_meta_eq (doc : Doc) (r : Record) :
    step_meta doc r =
      { r with meta_description :=
          match doc.metaDescTag with | some c => some (c.getD "") | none => r.meta_description } := by
  cases h : doc.metaDescTag <;> simp [step_meta, h]

/-- The image-routing loop appends the classified images and diagrams. -/
lemma routeImgs_spec (base_url : String) (imgs : List Img) (r : Record) :
    routeImgs base_url imgs r =
      { r with images := r.images ++ imagesOf base_url imgs,
               diagrams := r.diagrams ++ diagramsOf base_url imgs } := by
  induction imgs generalizing r with
  | nil => simp [routeImgs, imagesOf, diagramsOf]
  | cons im rest ih =>
    have hty : (mkImgRef base_url im).itype = classify_image_type (basename im.src) im.alt := rfl
    by_cases hs : im.src = ""
    · simp [routeImgs, hs, imagesOf, diagramsOf, ih, List.filter_cons]
    · by_cases hd : isDiagramImg im
      · have : (mkImgRef base_url im).itype = "diagram" := by
          rw [hty]; exact of_decide_eq_true hd
        simp [routeImgs, hs, this, ih, imagesOf, diagramsOf, List.filter_cons, hd,
          List.append_assoc]
      · have : ¬ (mkImgRef base_url im).itype = "diagram" := by
          rw [hty]; exact of_decide_eq_false (by simpa [isDiagramImg] using hd)
        simp [routeImgs, hs, this, ih, imagesOf, diagramsOf, List.filter_cons, hd,
          List.append_assoc]

/-- `step_principle` in record-update form. -/
lemma step_principle_eq (r : Record) :
    step_principle r =
      { r with
        principle :=
          if (r.technical_details.filter keywordHit) ≠ [] then
            String.intercalate "\n\n" ((r.technical_details.filter keywordHit).take 3)
          else r.principle,
        description :=
          if (r.technical_details.filter keywordHit) ≠ [] then r.description
          else r.technical_details.headD r.description } := by
  rcases r with ⟨nm, u, ea, ti, de, pr, td, pa, im, di, re, fc, ss, md⟩
  unfold step_principle
  dsimp only
  by_cases hp : (td.filter keywordHit) = []
  · simp only [if_neg (not_not_intro hp)]
    cases td with
    | nil => rfl
    | cons p0 ps => rfl
  · simp only [if_pos hp]

/-- Full characterisation of the non-raising extraction pipeline: every
field of the resulting record in terms of the document views. -/
lemma extract_fields (doc : Doc) (url name ts : String) :
    extract_invention_content doc url name ts =
      { name := name, url := url, extracted_at := ts,
        title := (match doc.titleTag with | some t => clean_text t | none => ""),
        description :=
          (if ((techDetailsOf doc.paragraphs).filter keywordHit) ≠ [] then ""
           else (techDetailsOf doc.paragraphs).headD ""),
        principle :=
          (if ((techDetailsOf doc.paragraphs).filter keywordHit) ≠ [] then
            String.intercalate "\n\n" (((techDetailsOf doc.paragraphs).filter keywordHit).take 3)
           else ""),
        technical_details := techDetailsOf doc.paragraphs,
        patents := extract_patent_info (page_full_text doc),
        images := imagesOf url doc.imgs,
        diagrams := diagramsOf url doc.imgs,
        references := referencesOf doc.anchors,
        full_content := clean_text (page_full_text doc),
        structured_sections := extract_structured_sections_map doc.body,
        meta_description :=
          (match doc.metaDescTag with | some c => some (c.getD "") | none => none) } := by
  unfold extract_invention_content run_steps extract_steps
  simp only [List.foldl, step_title_eq, step_meta_eq, step_full_content, step_sections,
    step_images, routeImgs_spec, step_patents, step_references, step_principle_eq,
    init_record, List.nil_append]

/-- Everything routed to `images` is classified as a non-diagram. -/
lemma mem_imagesOf_itype {url : String} {imgs : List Img} {x : ImageRef}
    (hx : x ∈ imagesOf url imgs) : x.itype ≠ "diagram" := by
  obtain ⟨im, him, rfl⟩ := List.mem_map.mp hx
  obtain ⟨-, hpred⟩ := List.mem_filter.mp him
  have hd : isDiagramImg im = false := by
    rcases Bool.and_eq_true .. |>.mp hpred with ⟨-, hnd⟩
    simpa using hnd
  have : (mkImgRef url im).itype = classify_image_type (basename im.src) im.alt := rfl
  rw [this]
  simpa [isDiagramImg] using hd

/-- Everything routed to `diagrams` is classified as a diagram. -/
lemma mem_diagramsOf_itype {url : String} {imgs : List Img} {x : ImageRef}
    (hx : x ∈ diagramsOf url imgs) : x.itype = "diagram" := by
  obtain ⟨im, him, rfl⟩ := List.mem_map.mp hx
  obtain ⟨-, hpred⟩ := List.mem_filter.mp him
  have hd : isDiagramImg im = true := (Bool.and_eq_true .. |>.mp hpred).2
  have : (mkImgRef url im).itype = classify_image_type (basename im.src) im.alt := rfl
  rw [this]
  exact of_decide_eq_true hd

/-- The two routed lists together are a permutation of all kept images. -/
lemma imagesOf_append_diagramsOf_perm (url : String) (imgs : List Img) :
    (imagesOf url imgs ++ diagramsOf url imgs).Perm (keptImgs url imgs) := by
  have h1 : imagesOf url imgs =
      ((imgs.filter (fun im => im.src ≠ "")).filter (fun im => !isDiagramImg im)).map
        (mkImgRef url) := by
    unfold imagesOf
    rw [List.filter_filter]
    congr 1
    apply List.filter_congr
    intro a _
    rw [Bool.and_comm]
  have h2 : diagramsOf url imgs =
      ((imgs.filter (fun im => im.src ≠ "")).filter
        (fun im => !(!isDiagramImg im))).map (mkImgRef url) := by
    unfold diagramsOf
    rw [List.filter_filter]
    congr 1
    apply List.filter_congr
    intro a _
    simp [Bool.and_comm]
  rw [h1, h2, ← List.map_append]
  exact (List.filter_append_perm _ _).map _

/-- C5: for every Record produced by the Content Extractor, `images` and
`diagrams` are disjoint, and together they contain exactly one ImageRef
per `<img>` element with a non-empty `src`: diagram-classified elements go
to `diagrams`, every other such element to `images`. -/
theorem claim_C5_image_partition (doc : Doc) (url name ts : String) :
    (extract_invention_content doc url name ts).images = imagesOf url doc.imgs ∧
    (extract_invention_content doc url name ts).diagrams = diagramsOf url doc.imgs ∧
    List.Disjoint (extract_invention_content doc url name ts).images
      (extract_invention_content doc url name ts).diagrams ∧
    ((extract_invention_content doc url name ts).images ++
        (extract_invention_content doc url name ts).diagrams).Perm
      (keptImgs url doc.imgs) := by
  rw [extract_fields]
  refine ⟨rfl, rfl, ?_, ?_⟩
  · intro x hx hx'
    exact absurd (mem_diagramsOf_itype hx') (mem_imagesOf_itype hx)
  · exact imagesOf_append_diagramsOf_perm url doc.imgs

/-- C7 (amended): the title field is the `clean_text` of the title element
text (entities decoded, whitespace runs collapsed, trimmed), empty when the
element is absent; the meta-description field is the `content` attribute
verbatim — untrimmed — when a description meta tag is present, and is left
unset (no key) when the tag is absent. -/
theorem claim_C7_title_meta (doc : Doc) (url name ts : String) :
    (extract_invention_content doc url name ts).title =
      (match doc.titleTag with | some t => clean_text t | none => "") ∧
    (extract_invention_content doc url name ts).meta_description =
      (match doc.metaDescTag with | some c => some (c.getD "") | none => none) := by
  rw [extract_fields]
  exact ⟨rfl, rfl⟩

/-- C7 as stated fails: on a document whose title is `"Free  Energy"` the
title field is not the verbatim-trimmed title text (interior whitespace is
collapsed), and on a meta description `" A device. "` the stored value is
not trimmed. -/
theorem claim_C7_counterexample :
    ¬ ((extract_invention_content docC7 "u" "n" "t").title = pyStrip "Free  Energy") ∧
    ¬ ((extract_invention_content docC7 "u" "n" "t").meta_description =
        some (pyStrip " A device. ")) := by
  constructor <;> decide

/-- C6: if some technical-detail block contains a principle keyword
(case-insensitively), `principle` is the first at most 3 matching blocks in
document order joined by a blank line and `description` stays empty; if no
block matches, `principle` stays empty and `description` is the first
technical-detail block (empty when there is none).  The two fields are
never both non-empty. -/
theorem claim_C6_principle (doc : Doc) (url name ts : String) :
    ((∃ b ∈ (extract_invention_content doc url name ts).technical_details,
        keywordHit b = true) →
      (extract_invention_content doc url name ts).principle =
        String.intercalate "\n\n"
          (((extract_invention_content doc url name ts).technical_details.filter
              keywordHit).take 3) ∧
      (extract_invention_content doc url name ts).description = "") ∧
    ((∀ b ∈ (extract_invention_content doc url name ts).technical_details,
        keywordHit b = false) →
      (extract_invention_content doc url name ts).principle = "" ∧
      (extract_invention_content doc url name ts).description =
        (extract_invention_content doc url name ts).technical_details.headD "") ∧
    ¬ ((extract_invention_content doc url name ts).principle ≠ "" ∧
       (extract_invention_content doc url name ts).description ≠ "") := by
  rw [extract_fields]
  dsimp only
  by_cases hp : (techDetailsOf doc.paragraphs).filter keywordHit = []
  · rw [List.filter_eq_nil_iff] at hp
    refine ⟨?_, ?_, ?_⟩
    · rintro ⟨b, hb, hkb⟩
      exact absurd hkb (by simpa using hp b hb)
    · intro _
      rw [if_neg (not_not_intro (List.filter_eq_nil_iff.mpr hp)),
        if_neg (not_not_intro (List.filter_eq_nil_iff.mpr hp))]
      exact ⟨rfl, rfl⟩
    · rw [if_neg (not_not_intro (List.filter_eq_nil_iff.mpr hp))]
      rintro ⟨habs, -⟩
      exact habs rfl
  · refine ⟨?_, ?_, ?_⟩
    · intro _
      rw [if_pos hp, if_pos hp]
      exact ⟨rfl, rfl⟩
    · intro hall
      exact absurd (List.filter_eq_nil_iff.mpr (fun a ha => by simp [hall a ha])) hp
    · rw [if_pos hp, if_pos hp]
      rintro ⟨-, habs⟩
      exact habs rfl

/-- Witness for C6 at a concrete document with one principle-bearing
paragraph. -/
theorem claim_C6_witness :
    (extract_invention_content docC6 "u" "n" "t").principle =
      String.intercalate "\n\n"
        (((extract_invention_content docC6 "u" "n" "t").technical_details.filter
            keywordHit).take 3) ∧
    (extract_invention_content docC6 "u" "n" "t").description = "" :=
  (claim_C6_principle docC6 "u" "n" "t").1 (by decide)

/-- Upserting a key makes it retrievable. -/
lemma dictGet_upsert_self (m : List (String × List String)) (k : String) (v : List String) :
    dictGet (upsert m k v) k = some v := by
  induction m with
  | nil => simp [upsert, dictGet]
  | cons p m ih =>
    by_cases hp : p.1 = k
    · simp [upsert, dictGet, hp]
    · simp [upsert, dictGet, hp, ih]

/-- Upserting one key leaves lookups of other keys unchanged. -/
lemma dictGet_upsert_other (m : List (String × List String)) (k h : String)
    (v : List String) (hne : h ≠ k) : dictGet (upsert m k v) h = dictGet m h := by
  have hkh : ¬ k = h := fun e => hne e.symm
  induction m with
  | nil => simp [upsert, dictGet, hkh]
  | cons p m ih =>
    by_cases hp : p.1 = k
    · have hph : ¬ p.1 = h := fun e => hkh (hp ▸ e)
      simp [upsert, dictGet, hp, hph, hkh]
    · by_cases hph : p.1 = h
      · simp [upsert, dictGet, hp, hph, hne]
      · simp [upsert, dictGet, hp, hph, ih]

/-- `(some a).or x = some a`. -/
lemma some_or_eq (a : α) (x : Option α) : (some a).or x = some a := rfl

/-- The last element of a cons, via `Option.or`. -/
lemma getLast?_cons_or (a : α) (l : List α) :
    (a :: l).getLast? = l.getLast?.or (some a) := by
  cases l with
  | nil => rfl
  | cons b l =>
    rw [List.getLast?_cons_cons]
    cases hx : (b :: l).getLast? with
    | none => exact absurd (List.getLast?_eq_none_iff.mp hx) (List.cons_ne_nil b l)
    | some x => rfl

/-- Invariant of the heading loop: the final binding of `h` is the content
of the last heading occurrence with cleaned text `h` and non-empty content,
falling back to the accumulator. -/
lemma sectionsAux_get (body : List BNode) (acc : List (String × List String)) (h : String) :
    dictGet (sectionsAux acc body) h =
      ((headingContents body h).getLast?).or (dictGet acc h) := by
  induction body generalizing acc with
  | nil => simp [sectionsAux, headingContents, Option.none_or]
  | cons node rest ih =>
    cases node with
    | elem t => simpa [sectionsAux, headingContents] using ih acc
    | heading lv t =>
      by_cases hht : clean_text t = ""
      · have hskip : ¬ (clean_text t = h ∧ clean_text t ≠ "" ∧ sectionContent rest ≠ []) := by
          rintro ⟨-, habs, -⟩
          exact habs hht
        simpa [sectionsAux, headingContents, hht, hskip] using ih acc
      · by_cases hc : sectionContent rest = []
        · have hskip : ¬ (clean_text t = h ∧ clean_text t ≠ "" ∧ sectionContent rest ≠ []) := by
            rintro ⟨-, -, habs⟩
            exact habs hc
          simpa [sectionsAux, headingContents, hht, hc, hskip] using
            ih acc
        · by_cases hkey : clean_text t = h
          · have hcnt : clean_text t = h ∧ clean_text t ≠ "" ∧ sectionContent rest ≠ [] :=
              ⟨hkey, hht, hc⟩
            rw [show sectionsAux acc (BNode.heading lv t :: rest) =
                sectionsAux (upsert acc (clean_text t) (sectionContent rest)) rest by
              simp [sectionsAux, hht, hc]]
            have hh0 : ¬ h = "" := hkey ▸ hht
            rw [ih, show headingContents (BNode.heading lv t :: rest) h =
                sectionContent rest :: headingContents rest h by
              simp [headingContents, hcnt, hh0]]
            rw [hkey, dictGet_upsert_self, getLast?_cons_or, Option.or_assoc, some_or_eq]
          · have hne : h ≠ clean_text t := fun e => hkey e.symm
            have hskip : ¬ (clean_text t = h ∧ clean_text t ≠ "" ∧ sectionContent rest ≠ []) := by
              rintro ⟨habs, -, -⟩
              exact hkey habs
            rw [show sectionsAux acc (BNode.heading lv t :: rest) =
                sectionsAux (upsert acc (clean_text t) (sectionContent rest)) rest by
              simp [sectionsAux, hht, hc]]
            rw [ih, dictGet_upsert_other _ _ _ _ hne]
            simp [headingContents, hskip]

/-- C10: when headings share cleaned text, `structured_sections` maps that
text to the fragment list of the last occurrence that has at least one
qualifying fragment; earlier bindings are overwritten. -/
theorem claim_C10_duplicate_headings (doc : Doc) (url name ts h : String) :
    dictGet ((extract_invention_content doc url name ts).structured_sections) h =
      (headingContents doc.body h).getLast? := by
  rw [extract_fields]
  dsimp only
  unfold extract_structured_sections_map
  rw [sectionsAux_get]
  simp [dictGet, Option.or_none]

/-- Characterisation of `is_invention_link` as the conjunction of the
documented acceptance conditions. -/
lemma is_invention_link_iff (href text : String) :
    is_invention_link href text = true ↔
      (containsNone (strLower href) exclude_patterns ∧
       containsNone (strLower text) exclude_texts ∧
       strEndsWith href ".html" = true ∧
       2 < text.length ∧ text.length < 200 ∧
       pyIsDigit text = false ∧
       strStartsWith text "[" = false ∧
       strStartsWith text "(" = false) := by
  unfold containsNone
  simp only [is_invention_link]
  by_cases hp : exclude_patterns.any (fun p => containsSub (strLower href) p) = true
  · rw [if_pos hp]
    simp only [Bool.false_eq_true, false_iff]
    rintro ⟨c1, -⟩
    rw [List.any_eq_true] at hp
    obtain ⟨q, hq, hcq⟩ := hp
    rw [c1 q hq] at hcq
    cases hcq
  · rw [if_neg hp]
    by_cases ht : exclude_texts.any (fun p => containsSub (strLower text) p) = true
    · rw [if_pos ht]
      simp only [Bool.false_eq_true, false_iff]
      rintro ⟨-, c2, -⟩
      rw [List.any_eq_true] at ht
      obtain ⟨q, hq, hcq⟩ := ht
      rw [c2 q hq] at hcq
      cases hcq
    · rw [if_neg ht]
      rw [Bool.not_eq_true, List.any_eq_false] at hp ht
      constructor
      · intro hb
        simp only [Bool.and_eq_true, decide_eq_true_eq, Bool.not_eq_true'] at hb
        obtain ⟨⟨⟨⟨⟨hb1, hb2⟩, hb3⟩, hb4⟩, hb5⟩, hb6⟩ := hb
        exact ⟨fun p hp' => by simpa using hp p hp',
               fun p hp' => by simpa using ht p hp',
               hb1, hb2, hb6, hb3, hb4, hb5⟩
      · rintro ⟨-, -, h3, h4, h5, h6, h7, h8⟩
        simp only [Bool.and_eq_true, decide_eq_true_eq, Bool.not_eq_true']
        exact ⟨⟨⟨⟨⟨h3, h4⟩, h6⟩, h7⟩, h8⟩, h5⟩

/-- C1: an anchor with non-empty stripped href and text is retained as an
entry-link candidate (before URL deduplication) exactly when its href
contains none of the excluded substrings, its text contains none of the
excluded substrings, the href ends in `.html`, the text length lies
strictly between 2 and 200, the text is not purely numeric, and the text
starts with neither `[` nor `(`. -/
theorem claim_C1_link_filter (doc : Doc) (a : Anchor) (ha : a ∈ doc.anchors)
    (h1 : pyStrip a.href ≠ "") (h2 : aTextStripped a ≠ "") :
    (is_invention_link (pyStrip a.href) (aTextStripped a) = true ↔
      (containsNone (strLower (pyStrip a.href)) exclude_patterns ∧
       containsNone (strLower (aTextStripped a)) exclude_texts ∧
       strEndsWith (pyStrip a.href) ".html" = true ∧
       2 < (aTextStripped a).length ∧ (aTextStripped a).length < 200 ∧
       pyIsDigit (aTextStripped a) = false ∧
       strStartsWith (aTextStripped a) "[" = false ∧
       strStartsWith (aTextStripped a) "(" = false)) ∧
    (is_invention_link (pyStrip a.href) (aTextStripped a) = true →
      mkEntry a ∈ invention_links_raw doc) := by
  refine ⟨is_invention_link_iff _ _, fun hinv => ?_⟩
  unfold invention_links_raw
  rw [List.mem_filterMap]
  refine ⟨a, ha, ?_⟩
  have hcond : (decide (pyStrip a.href ≠ "") && decide (aTextStripped a ≠ "")) = true := by
    simp [h1, h2]
  simp only [hcond, if_true, hinv]

/-- Witness for C1: the candidate anchor of `docC1` is retained. -/
theorem claim_C1_witness : mkEntry ancC1 ∈ invention_links_raw docC1 :=
  (claim_C1_link_filter docC1 ancC1 (by decide) (by decide) (by decide)).2 (by decide)

/-- C2: whichever statement of the `try` block raises (index `k`;
`k ≥ 8` is the non-raising run), the extractor still returns a Record that
carries `name`, `url` and `extracted_at`, and every field the interrupted
run did not populate keeps its empty default. -/
theorem claim_C2_fault_tolerance (doc : Doc) (url name ts : String) (k : Nat) :
    (extract_invention_content_faulty doc url name ts k).name = name ∧
    (extract_invention_content_faulty doc url name ts k).url = url ∧
    (extract_invention_content_faulty doc url name ts k).extracted_at = ts ∧
    (k ≤ 0 → (extract_invention_content_faulty doc url name ts k).title = "") ∧
    (k ≤ 1 → (extract_invention_content_faulty doc url name ts k).meta_description = none) ∧
    (k ≤ 2 → (extract_invention_content_faulty doc url name ts k).full_content = "") ∧
    (k ≤ 3 → (extract_invention_content_faulty doc url name ts k).structured_sections = [] ∧
             (extract_invention_content_faulty doc url name ts k).technical_details = []) ∧
    (k ≤ 4 → (extract_invention_content_faulty doc url name ts k).images = [] ∧
             (extract_invention_content_faulty doc url name ts k).diagrams = []) ∧
    (k ≤ 5 → (extract_invention_content_faulty doc url name ts k).patents = []) ∧
    (k ≤ 6 → (extract_invention_content_faulty doc url name ts k).references = []) ∧
    (k ≤ 7 → (extract_invention_content_faulty doc url name ts k).principle = "" ∧
             (extract_invention_content_faulty doc url name ts k).description = "") := by
  rcases k with _|_|_|_|_|_|_|_|k
  case succ.succ.succ.succ.succ.succ.succ.succ =>
    have htake : (extract_steps doc url).take (k + 1 + 1 + 1 + 1 + 1 + 1 + 1 + 1) =
        extract_steps doc url := by
      apply List.take_of_length_le
      simp only [extract_steps, List.length_cons, List.length_nil]
      omega
    unfold extract_invention_content_faulty
    rw [htake]
    rw [show run_steps (extract_steps doc url) (init_record name url ts) =
        extract_invention_content doc url name ts from rfl, extract_fields]
    refine ⟨rfl, rfl, rfl, ?_, ?_, ?_, ?_, ?_, ?_, ?_, ?_⟩ <;> intro hk <;>
      exact absurd hk (by omega)
  all_goals
    simp only [extract_invention_content_faulty, run_steps, extract_steps, List.take,
      List.foldl, step_title_eq, step_meta_eq, step_full_content, step_sections, step_images,
      routeImgs_spec, step_patents, step_references, step_principle_eq, init_record,
      List.nil_append]
  all_goals
    refine ⟨?_, ?_, ?_, ?_, ?_, ?_, ?_, ?_, ?_, ?_, ?_⟩ <;>
      first
        | trivial
        | (intro hk; exact absurd hk (by omega))

/-- Witness for C2: a run that raises in its third statement (index 2)
keeps the identifying fields and the defaults of everything later. -/
theorem claim_C2_witness :
    (extract_invention_content_faulty docC2 "https://u" "N" "T" 2).name = "N" ∧
    (extract_invention_content_faulty docC2 "https://u" "N" "T" 2).full_content = "" ∧
    (extract_invention_content_faulty docC2 "https://u" "N" "T" 2).patents = [] := by
  have h := claim_C2_fault_tolerance docC2 "https://u" "N" "T" 2
  exact ⟨h.1, h.2.2.2.2.2.1 (by omega), h.2.2.2.2.2.2.2.2.1 (by omega)⟩

/-- The whitespace collapse never emits a newline. -/
lemma newline_not_mem_collapseWs (l : List Char) : '\n' ∉ collapseWs l := by
  induction l with
  | nil => intro h; cases h
  | cons c cs ih =>
    cases cs with
    | nil =>
      by_cases hc : isPySpace c
      · intro h
        rw [show collapseWs [c] = [' '] from by simp [collapseWs, hc]] at h
        exact absurd (List.mem_singleton.mp h) (by decide)
      · intro h
        rw [show collapseWs [c] = [c] from by simp [collapseWs, hc]] at h
        rcases List.mem_singleton.mp h with rfl
        exact hc (by decide)
    | cons c' cs' =>
      by_cases hc : isPySpace c
      · by_cases hc' : isPySpace c'
        · rw [show collapseWs (c :: c' :: cs') = collapseWs (c' :: cs') from by
            simp [collapseWs, hc, hc']]
          exact ih
        · rw [show collapseWs (c :: c' :: cs') = ' ' :: collapseWs (c' :: cs') from by
            simp [collapseWs, hc, hc']]
          intro h
          rcases List.mem_cons.mp h with h2 | h2
          · exact absurd h2 (by decide)
          · exact ih h2
      · rw [show collapseWs (c :: c' :: cs') = c :: collapseWs (c' :: cs') from by
          simp [collapseWs, hc]]
        intro h
        rcases List.mem_cons.mp h with rfl | h2
        · exact hc (by decide)
        · exact ih h2

/-- On newline-free input the paragraph-break rule is the identity. -/
lemma subNlF_id_of_no_newline (fuel : Nat) (l : List Char) (h : '\n' ∉ l) :
    subNlF fuel l = l := by
  induction fuel generalizing l with
  | zero => cases l <;> rfl
  | succ fuel ih =>
    cases l with
    | nil => rfl
    | cons c cs =>
      have hc : ¬ c = '\n' := fun e => h (by simp [e])
      simp only [subNlF, hc, if_false]
      rw [ih cs (fun hm => h (List.mem_cons_of_mem c hm))]

/-- Stripping only removes characters. -/
lemma mem_pyStrip_sub {c : Char} {s : String} (h : c ∈ (pyStrip s).data) : c ∈ s.data := by
  unfold pyStrip at h
  simp only [List.mem_reverse] at h
  have h2 := (List.dropWhile_sublist isPySpace).subset h
  simp only [List.mem_reverse] at h2
  exact (List.dropWhile_sublist isPySpace).subset h2

/-- A double newline cannot occur in a newline-free character list. -/
lemma infix_nn_false (l : List Char) (h : '\n' ∉ l) :
    infixAux ['\n', '\n'] l = false := by
  induction l with
  | nil => rfl
  | cons c cs ih =>
    have hcb : (('\n' : Char) == c) = false := by
      rw [beq_eq_false_iff_ne]
      exact fun e => h (by simp [← e])
    simp only [infixAux, List.isPrefixOf, Bool.or_eq_false_iff, Bool.and_eq_false_iff]
    exact ⟨Or.inl hcb, ih (fun hm => h (List.mem_cons_of_mem c hm))⟩

/-- C3: evaluated at a document whose raw text holds a paragraph break, the
cleaned full content collapses the break to a single space; in general the
cleaned text of any input contains no blank-line separator at all, because
the `\s+` collapse runs before the `\n\s*\n` rule, leaving the latter
nothing to match. -/
theorem claim_C3_paragraph_breaks :
    (extract_invention_content docC3 "u" "n" "t").full_content =
      "First paragraph. Second paragraph." ∧
    ∀ s : String, containsSub (clean_text s) "\n\n" = false := by
  constructor
  · decide
  · intro s
    unfold containsSub
    apply infix_nn_false
    intro hmem
    simp only [clean_text] at hmem
    have hno : '\n' ∉ collapseWs (entityDecode s).data := newline_not_mem_collapseWs _
    have h2 := mem_pyStrip_sub hmem
    rw [subNlF_id_of_no_newline _ _ hno] at h2
    exact hno h2

/-- Deduplication only drops elements. -/
lemma mem_dedupByUrlAux {x : EntryLink} (seen : List String) (l : List EntryLink)
    (h : x ∈ dedupByUrlAux seen l) : x ∈ l := by
  induction l generalizing seen with
  | nil => cases h
  | cons y l ih =>
    by_cases hy : seen.any (fun u => u = y.url) = true
    · exact List.mem_cons_of_mem y (ih _ (by simpa [dedupByUrlAux, hy] using h))
    · rcases List.mem_cons.mp (by simpa [dedupByUrlAux, hy] using h) with rfl | h2
      · exact List.mem_cons_self ..
      · exact List.mem_cons_of_mem y (ih _ h2)

/-- Two-element prefix versus `take 2`. -/
lemma isPrefixOf_two_iff (a b : Char) (l : List Char) :
    [a, b].isPrefixOf l = true ↔ l.take 2 = [a, b] := by
  match l with
  | [] => simp [List.isPrefixOf]
  | [c] => simp [List.isPrefixOf]
  | c :: d :: tl =>
    show ([a, b].isPrefixOf (c :: d :: tl)) = true ↔ [c, d] = [a, b]
    simp only [List.isPrefixOf, Bool.and_eq_true, beq_iff_eq, List.cons.injEq, and_true]
    constructor
    · rintro ⟨rfl, rfl⟩
      exact ⟨rfl, rfl⟩
    · rintro ⟨rfl, rfl⟩
      exact ⟨rfl, rfl⟩

/-- The unparse step for the crawler's base scheme and netloc always lands
on the base domain. -/
lemma urlunparse3_startsWith (p : List Char) :
    strStartsWith (urlunparse3 "https" "www.rexresearch.com" p) base_domain = true := by
  have hcond : (decide (("www.rexresearch.com" : String) ≠ "") ||
      decide (List.take 2 p = ['/', '/'])) = true := by simp
  unfold urlunparse3
  simp only [hcond]
  rw [if_pos (trivial : True),
    if_pos (show ("https" : String) ≠ "" by decide)]
  apply strStartsWith_of_data_append
  have hbase : base_domain.data =
      "https".data ++ ':' :: '/' :: '/' :: "www.rexresearch.com".data := by decide
  rw [hbase]
  simp only [List.append_assoc, List.cons_append, List.nil_append]
  rfl

/-- Resolving a scheme-free, non-protocol-relative, non-empty reference
against the crawler's base domain yields a URL on that domain. -/
lemma urljoin_rel_startsWith (href : String) (h1 : hasSchemeB href = false)
    (h2 : strStartsWith href "//" = false) (h3 : href ≠ "") :
    strStartsWith (urljoin_gen base_domain href) base_domain = true := by
  have hsch : schemeSplit href.data = none := by
    rw [← Option.not_isSome_iff_eq_none]
    simp only [hasSchemeB] at h1
    simp [h1]
  have htake : ¬ (href.data.take 2 = ['/', '/']) := by
    intro habs
    have hpre := (isPrefixOf_two_iff '/' '/' href.data).mpr habs
    unfold strStartsWith at h2
    rw [show ("//" : String).data = ['/', '/'] from by decide, hpre] at h2
    cases h2
  have hb : urlparseWith "" base_domain = ⟨"https", "www.rexresearch.com", ""⟩ := by decide
  have hr : urlparseWith "https" href = ⟨"https", "", href⟩ := by
    simp only [urlparseWith, hsch]
    rw [if_neg htake]
  unfold urljoin_gen
  rw [if_neg (show ¬ (base_domain = "") by decide), if_neg h3]
  simp only [hb, hr]
  rw [if_neg (show ¬ ((decide (("https" : String) ≠ "https") ||
      !(uses_relative.any fun s => decide (s = "https"))) = true) by decide)]
  simp only [show (uses_netloc.any fun s => decide (s = ("https" : String))) = true by decide,
    Bool.true_and]
  rw [if_neg (show ¬ ((decide (("" : String) ≠ "")) = true) by decide)]
  rw [if_neg (by simpa using h3)]
  rw [if_pos (trivial : True)]
  exact urlunparse3_startsWith _

/-- C8 (amended): every EntryLink's href ends in `.html`, and its URL
starts with the configured base domain whenever the href is neither
scheme-qualified nor protocol-relative (`//...`); hrefs of those two
escaping forms survive the classifier's filters and resolve off-domain. -/
theorem claim_C8_entrylink_shape (doc : Doc) (e : EntryLink)
    (he : e ∈ extract_invention_links doc) :
    strEndsWith e.href ".html" = true ∧
    (hasSchemeB e.href = false → strStartsWith e.href "//" = false →
      strStartsWith e.url base_domain = true) := by
  have hraw : e ∈ invention_links_raw doc := mem_dedupByUrlAux _ _ he
  unfold invention_links_raw at hraw
  rw [List.mem_filterMap] at hraw
  obtain ⟨a, ha, hfa⟩ := hraw
  simp only at hfa
  split_ifs at hfa with hc hinv
  · obtain rfl : mkEntry a = e := Option.some.inj hfa
    have hconds := (is_invention_link_iff _ _).mp hinv
    refine ⟨hconds.2.2.1, fun hs hss => ?_⟩
    have hne : pyStrip a.href ≠ "" := by
      have := (Bool.and_eq_true ..).mp hc
      simpa using this.1
    exact urljoin_rel_startsWith _ hs hss hne

/-- C8 as stated fails: on an index page whose anchor is protocol-relative
(`//evil.example/a.html`), the classifier retains the link but its
resolved URL does not start with the base domain. -/
theorem claim_C8_counterexample :
    (extract_invention_links docC8).all
      (fun e => strStartsWith e.url base_domain) = false := by decide

/-- Witness for C8 on an ordinary relative anchor. -/
theorem claim_C8_witness :
    strEndsWith entW8.href ".html" = true ∧
    strStartsWith entW8.url base_domain = true := by
  have h := claim_C8_entrylink_shape docW8 entW8 (by decide)
  exact ⟨h.1, h.2 (by decide) (by decide)⟩

/-- Splitting a successful `Option` alternative. -/
lemma hOrElse_eq_some {α : Type} {a b : Option α} {x : α} (h : (a <|> b) = some x) :
    a = some x ∨ b = some x := by
  cases a with
  | none => right; simpa using h
  | some y => left; simpa using h

/-- `takeDigits` yields digits only. -/
lemma takeDigits_all {n : Nat} {l d r : List Char} (h : takeDigits n l = some (d, r)) :
    ∀ c ∈ d, isDigitA c = true := by
  induction n generalizing l d r with
  | zero =>
    unfold takeDigits at h
    obtain ⟨rfl, rfl⟩ : d = [] ∧ r = l := by
      injection h with h2
      injection h2 with h3 h4
      exact ⟨h3.symm, h4.symm⟩
    intro c hc
    cases hc
  | succ n ih =>
    cases l with
    | nil => cases h
    | cons c0 cs =>
      unfold takeDigits at h
      by_cases hd : isDigitA c0
      · rw [if_pos hd] at h
        cases h2 : takeDigits n cs with
        | none => rw [h2] at h; cases h
        | some pr =>
          obtain ⟨d', r'⟩ := pr
          rw [h2] at h
          obtain ⟨rfl, rfl⟩ : d = c0 :: d' ∧ r = r' := by
            injection h with h3
            injection h3 with h4 h5
            exact ⟨h4.symm, h5.symm⟩
          intro c hc
          rcases List.mem_cons.mp hc with rfl | hc
          · exact hd
          · exact ih h2 c hc
      · rw [if_neg hd] at h
        cases h

/-- `takeSep` yields separators only. -/
lemma takeSep_all {b : Bool} {l d r : List Char} (h : takeSep b l = some (d, r)) :
    ∀ c ∈ d, isSep c = true := by
  cases b with
  | false =>
    obtain ⟨rfl, rfl⟩ : d = [] ∧ r = l := by
      unfold takeSep at h
      simp only [if_neg (by simp : ¬ (false = true))] at h
      injection h with h2
      injection h2 with h3 h4
      exact ⟨h3.symm, h4.symm⟩
    intro c hc
    cases hc
  | true =>
    cases l with
    | nil => simp [takeSep] at h
    | cons c0 cs =>
      by_cases hs : isSep c0
      · rw [show takeSep true (c0 :: cs) = some ([c0], cs) from by simp [takeSep, hs]] at h
        obtain ⟨rfl, rfl⟩ : d = [c0] ∧ r = cs := by
          injection h with h2
          injection h2 with h3 h4
          exact ⟨h3.symm, h4.symm⟩
        intro c hc
        rcases List.mem_singleton.mp hc with rfl
        exact hs
      · rw [show takeSep true (c0 :: cs) = none from by simp [takeSep, hs]] at h
        cases h

/-- One alternative of the capture group consumes digits and separators
only. -/
lemma tryShape_chars {d1 : Nat} {s1 s2 : Bool} {l cap rest : List Char}
    (h : tryShape d1 s1 s2 l = some (cap, rest)) :
    ∀ c ∈ cap, isDigitA c = true ∨ isSep c = true := by
  unfold tryShape at h
  cases h1 : takeDigits d1 l with
  | none => rw [h1] at h; cases h
  | some p1 =>
    obtain ⟨a, l1⟩ := p1
    rw [h1] at h
    simp only [Option.pure_def, Option.bind_eq_bind, Option.some_bind] at h
    cases h2 : takeSep s1 l1 with
    | none => rw [h2] at h; cases h
    | some p2 =>
      obtain ⟨b, l2⟩ := p2
      rw [h2] at h
      simp only [Option.pure_def, Option.bind_eq_bind, Option.some_bind] at h
      cases h3 : takeDigits 3 l2 with
      | none => rw [h3] at h; cases h
      | some p3 =>
        obtain ⟨c3, l3⟩ := p3
        rw [h3] at h
        simp only [Option.pure_def, Option.bind_eq_bind, Option.some_bind] at h
        cases h4 : takeSep s2 l3 with
        | none => rw [h4] at h; cases h
        | some p4 =>
          obtain ⟨d4, l4⟩ := p4
          rw [h4] at h
          simp only [Option.pure_def, Option.bind_eq_bind, Option.some_bind] at h
          cases h5 : takeDigits 3 l4 with
          | none => rw [h5] at h; cases h
          | some p5 =>
            obtain ⟨e, l5⟩ := p5
            rw [h5] at h
            simp only [Option.pure_def, Option.bind_eq_bind, Option.some_bind] at h
            obtain ⟨rfl, rfl⟩ : cap = a ++ b ++ c3 ++ d4 ++ e ∧ rest = l5 := by
              injection h with h6
              injection h6 with h7 h8
              exact ⟨h7.symm, h8.symm⟩
            intro c hc
            simp only [List.append_assoc, List.mem_append] at hc
            rcases hc with hc | hc | hc | hc | hc
            · exact Or.inl (takeDigits_all h1 c hc)
            · exact Or.inr (takeSep_all h2 c hc)
            · exact Or.inl (takeDigits_all h3 c hc)
            · exact Or.inr (takeSep_all h4 c hc)
            · exact Or.inl (takeDigits_all h5 c hc)

/-- The capture group consumes digits and separators only. -/
lemma matchGroup_chars {l cap rest : List Char} (h : matchGroup l = some (cap, rest)) :
    ∀ c ∈ cap, isDigitA c = true ∨ isSep c = true := by
  unfold matchGroup at h
  rcases hOrElse_eq_some h with h | h
  · exact tryShape_chars h
  rcases hOrElse_eq_some h with h | h
  · exact tryShape_chars h
  rcases hOrElse_eq_some h with h | h
  · exact tryShape_chars h
  rcases hOrElse_eq_some h with h | h
  · exact tryShape_chars h
  rcases hOrElse_eq_some h with h | h
  · exact tryShape_chars h
  rcases hOrElse_eq_some h with h | h
  · exact tryShape_chars h
  rcases hOrElse_eq_some h with h | h
  · exact tryShape_chars h
  · exact tryShape_chars h

/-- A `pat1no` capture comes from the capture group. -/
lemma pat1no_group {l cap rest : List Char} (h : pat1no l = some (cap, rest)) :
    ∃ l', matchGroup l' = some (cap, rest) := by
  unfold pat1no at h
  cases h1 : litCI ['n', 'o'] l with
  | none => rw [h1] at h; cases h
  | some l1 =>
    rw [h1] at h
    simp only [Option.pure_def, Option.bind_eq_bind, Option.some_bind] at h
    rcases hOrElse_eq_some h with h2 | h2
    · cases h3 : charLit '.' l1 with
      | none => rw [h3] at h2; cases h2
      | some l2 =>
        rw [h3] at h2
        simp only [Option.pure_def, Option.bind_eq_bind, Option.some_bind] at h2
        exact ⟨_, h2⟩
    · exact ⟨_, h2⟩

/-- A `pat1core` capture comes from the capture group. -/
lemma pat1core_group {l cap rest : List Char} (h : pat1core l = some (cap, rest)) :
    ∃ l', matchGroup l' = some (cap, rest) := by
  unfold pat1core at h
  cases h1 : litCI ['p', 'a', 't', 'e', 'n', 't'] l with
  | none => rw [h1] at h; cases h
  | some l1 =>
    rw [h1] at h
    simp only [Option.pure_def, Option.bind_eq_bind, Option.some_bind] at h
    cases h2 : wsPlus l1 with
    | none => rw [h2] at h; cases h
    | some l2 =>
      rw [h2] at h
      simp only [Option.pure_def, Option.bind_eq_bind, Option.some_bind] at h
      rcases hOrElse_eq_some h with h3 | h3
      · exact pat1no_group h3
      · exact ⟨_, h3⟩

/-- A pattern-1 capture comes from the capture group. -/
lemma matchPat1_group {l cap rest : List Char} (h : matchPat1 l = some (cap, rest)) :
    ∃ l', matchGroup l' = some (cap, rest) := by
  unfold matchPat1 at h
  rcases hOrElse_eq_some h with h2 | h2
  · cases h1 : litCI ['u', 's'] l with
    | none => rw [h1] at h2; cases h2
    | some l1 =>
      rw [h1] at h2
      simp only [Option.pure_def, Option.bind_eq_bind, Option.some_bind] at h2
      exact pat1core_group h2
  · exact pat1core_group h2

/-- A pattern-2 capture comes from the capture group. -/
lemma matchPat2_group {l cap rest : List Char} (h : matchPat2 l = some (cap, rest)) :
    ∃ l', matchGroup l' = some (cap, rest) := by
  unfold matchPat2 at h
  cases h1 : litCI ['u', '.', 's', '.'] l with
  | none => rw [h1] at h; cases h
  | some l1 =>
    rw [h1] at h
    simp only [Option.pure_def, Option.bind_eq_bind, Option.some_bind] at h
    cases h2 : litCI ['p', 'a', 't', 'e', 'n', 't'] (wsStar l1) with
    | none => rw [h2] at h; cases h
    | some l2 =>
      rw [h2] at h
      simp only [Option.pure_def, Option.bind_eq_bind, Option.some_bind] at h
      cases h3 : wsPlus l2 with
      | none => rw [h3] at h; cases h
      | some l3 =>
        rw [h3] at h
        simp only [Option.pure_def, Option.bind_eq_bind, Option.some_bind] at h
        exact ⟨_, h⟩

/-- A pattern-3 capture comes from the capture group. -/
lemma matchPat3_group {l cap rest : List Char} (h : matchPat3 l = some (cap, rest)) :
    ∃ l', matchGroup l' = some (cap, rest) := by
  unfold matchPat3 at h
  cases h1 : litCI ['p', 'a', 't', 'e', 'n', 't'] l with
  | none => rw [h1] at h; cases h
  | some l1 =>
    rw [h1] at h
    simp only [Option.pure_def, Option.bind_eq_bind, Option.some_bind] at h
    cases h2 : wsPlus l1 with
    | none => rw [h2] at h; cases h
    | some l2 =>
      rw [h2] at h
      simp only [Option.pure_def, Option.bind_eq_bind, Option.some_bind] at h
      cases h3 : charLit '#' l2 with
      | none => rw [h3] at h; cases h
      | some l3 =>
        rw [h3] at h
        simp only [Option.pure_def, Option.bind_eq_bind, Option.some_bind] at h
        exact ⟨_, h⟩

/-- A pattern-4 capture comes from the capture group. -/
lemma matchPat4_group {l cap rest : List Char} (h : matchPat4 l = some (cap, rest)) :
    ∃ l', matchGroup l' = some (cap, rest) := by
  unfold matchPat4 at h
  cases h1 : litCI ['p', 'a', 't', '.'] l with
  | none => rw [h1] at h; cases h
  | some l1 =>
    rw [h1] at h
    simp only [Option.pure_def, Option.bind_eq_bind, Option.some_bind] at h
    cases h2 : litCI ['n', 'o', '.'] (wsStar l1) with
    | none => rw [h2] at h; cases h
    | some l2 =>
      rw [h2] at h
      simp only [Option.pure_def, Option.bind_eq_bind, Option.some_bind] at h
      exact ⟨_, h⟩

/-- Every scan result is a capture of the pattern. -/
lemma findAllF_from_pat {pat : List Char → Option (List Char × List Char)}
    {fuel : Nat} {l cap : List Char} (h : cap ∈ findAllF pat fuel l) :
    ∃ l' rest, pat l' = some (cap, rest) := by
  induction fuel generalizing l with
  | zero => cases h
  | succ fuel ih =>
    cases l with
    | nil => cases h
    | cons c cs =>
      cases hp : pat (c :: cs) with
      | some pr =>
        obtain ⟨cap', rest⟩ := pr
        rw [show findAllF pat (fuel + 1) (c :: cs) = cap' :: findAllF pat fuel rest from by
          simp [findAllF, hp]] at h
        rcases List.mem_cons.mp h with rfl | h2
        · exact ⟨_, _, hp⟩
        · exact ih h2
      | none =>
        rw [show findAllF pat (fuel + 1) (c :: cs) = findAllF pat fuel cs from by
          simp [findAllF, hp]] at h
        exact ih h

/-- String deduplication only drops elements. -/
lemma mem_dedupStrAux {x : String} (seen l : List String) (h : x ∈ dedupStrAux seen l) :
    x ∈ l := by
  induction l generalizing seen with
  | nil => cases h
  | cons y l ih =>
    by_cases hy : seen.any (fun z => z = y) = true
    · exact List.mem_cons_of_mem y (ih _ (by simpa [dedupStrAux, hy] using h))
    · rcases List.mem_cons.mp (by simpa [dedupStrAux, hy] using h) with rfl | h2
      · exact List.mem_cons_self ..
      · exact List.mem_cons_of_mem y (ih _ h2)

/-- Nothing in the deduplicated output is in the seen set. -/
lemma mem_dedupStrAux_not_seen {y : String} (seen l : List String)
    (h : y ∈ dedupStrAux seen l) : seen.any (fun z => z = y) = false := by
  induction l generalizing seen with
  | nil => cases h
  | cons x xs ih =>
    by_cases hx : seen.any (fun z => z = x) = true
    · exact ih _ (by simpa [dedupStrAux, hx] using h)
    · rcases List.mem_cons.mp (by simpa [dedupStrAux, hx] using h) with rfl | h2
      · exact Bool.eq_false_iff.mpr hx
      · have h3 := ih _ h2
        rw [List.any_eq_false] at h3 ⊢
        intro z hz
        exact h3 z (List.mem_cons_of_mem x hz)

/-- The deduplicated output has no duplicates. -/
lemma dedupStrAux_nodup (seen l : List String) : (dedupStrAux seen l).Nodup := by
  induction l generalizing seen with
  | nil => exact List.nodup_nil
  | cons x xs ih =>
    by_cases hx : seen.any (fun z => z = x) = true
    · simpa [dedupStrAux, hx] using ih seen
    · rw [show dedupStrAux seen (x :: xs) = x :: dedupStrAux (x :: seen) xs from by
        simp [dedupStrAux, hx]]
      refine List.Nodup.cons ?_ (ih _)
      intro habs
      have h3 := mem_dedupStrAux_not_seen _ _ habs
      rw [List.any_eq_false] at h3
      exact h3 x (List.mem_cons_self ..) (by simp)

/-- C4: every patent string consists solely of digits, has length at least
6 (separators removed), and the list holds no duplicates. -/
theorem claim_C4_patent_format (doc : Doc) (url name ts : String) :
    (∀ p ∈ (extract_invention_content doc url name ts).patents,
      6 ≤ p.length ∧ p.data.all isDigitA = true) ∧
    (extract_invention_content doc url name ts).patents.Nodup := by
  rw [extract_fields]
  dsimp only
  unfold extract_patent_info
  constructor
  · intro p hp
    have hp2 := mem_dedupStrAux _ _ hp
    rw [List.mem_filterMap] at hp2
    obtain ⟨lc, hlc, heq⟩ := hp2
    by_cases hlen : 6 ≤ lc.length
    case neg =>
      rw [if_neg (by simpa using hlen)] at heq
      cases heq
    rw [if_pos (by simpa using hlen)] at heq
    obtain rfl : (⟨lc⟩ : String) = p := Option.some.inj heq
    refine ⟨hlen, ?_⟩
    rw [List.mem_map] at hlc
    obtain ⟨cap, hcap, rfl⟩ := hlc
    rw [List.all_eq_true]
    intro c hc
    obtain ⟨hcmem, hcns⟩ := List.mem_filter.mp hc
    have hdigsep : isDigitA c = true ∨ isSep c = true := by
      rw [List.mem_append, List.mem_append, List.mem_append] at hcap
      rcases hcap with ((h1 | h2) | h3) | h4
      · obtain ⟨l', r', hm⟩ := findAllF_from_pat h1
        obtain ⟨l'', hg⟩ := matchPat1_group hm
        exact matchGroup_chars hg c hcmem
      · obtain ⟨l', r', hm⟩ := findAllF_from_pat h2
        obtain ⟨l'', hg⟩ := matchPat2_group hm
        exact matchGroup_chars hg c hcmem
      · obtain ⟨l', r', hm⟩ := findAllF_from_pat h3
        obtain ⟨l'', hg⟩ := matchPat3_group hm
        exact matchGroup_chars hg c hcmem
      · obtain ⟨l', r', hm⟩ := findAllF_from_pat h4
        obtain ⟨l'', hg⟩ := matchPat4_group hm
        exact matchGroup_chars hg c hcmem
    rcases hdigsep with hd | hs
    · exact hd
    · rw [hs] at hcns
      cases hcns
  · exact dedupStrAux_nodup _ _

/-- Witness for C4 at the specification's scenario text. -/
theorem claim_C4_witness :
    6 ≤ ("5123456" : String).length ∧ ("5123456" : String).data.all isDigitA = true :=
  (claim_C4_patent_format docC4 "u" "n" "t").1 "5123456" (by decide)

/-- `takeWhile` over an all-satisfying prefix. -/
lemma takeWhile_append_all {p : Char → Bool} {a : List Char} (b : List Char)
    (ha : ∀ c ∈ a, p c = true) :
    (a ++ b).takeWhile p = a ++ b.takeWhile p := by
  induction a with
  | nil => simp
  | cons x xs ih =>
    simp only [List.cons_append, List.takeWhile_cons, ha x (List.mem_cons_self ..)]
    rw [if_pos trivial]
    exact congrArg (fun l => x :: l) (ih (fun c hc => ha c (List.mem_cons_of_mem x hc)))

/-- `dropWhile` over an all-satisfying prefix. -/
lemma dropWhile_append_all {p : Char → Bool} {a : List Char} (b : List Char)
    (ha : ∀ c ∈ a, p c = true) :
    (a ++ b).dropWhile p = b.dropWhile p := by
  induction a with
  | nil => simp
  | cons x xs ih =>
    simp only [List.cons_append, List.dropWhile_cons, ha x (List.mem_cons_self ..), if_true]
    exact ih (fun c hc => ha c (List.mem_cons_of_mem x hc))

/-- Decimal digits of a natural: non-empty, all digits, and they evaluate
back to the number. -/
lemma natDigitsAux_spec (fuel : Nat) :
    ∀ n < fuel, natDigitsAux fuel n ≠ [] ∧
      (∀ c ∈ natDigitsAux fuel n, isDigitA c = true) ∧
      digitsVal (natDigitsAux fuel n) = n := by
  induction fuel with
  | zero => intro n hn; omega
  | succ fuel ih =>
    intro n hn
    by_cases h10 : n < 10
    · have hchar : (Char.ofNat (48 + n)).toNat = 48 + n ∧
          isDigitA (Char.ofNat (48 + n)) = true := by
        interval_cases n <;> exact ⟨by decide, by decide⟩
      refine ⟨by simp [natDigitsAux, h10], ?_, ?_⟩
      · intro c hc
        rw [show natDigitsAux (fuel + 1) n = [Char.ofNat (48 + n)] from by
          simp [natDigitsAux, h10]] at hc
        rcases List.mem_singleton.mp hc with rfl
        exact hchar.2
      · rw [show natDigitsAux (fuel + 1) n = [Char.ofNat (48 + n)] from by
          simp [natDigitsAux, h10]]
        simp [digitsVal, hchar.1]
    · have hdiv : n / 10 < fuel := by omega
      obtain ⟨hne, hall, hval⟩ := ih (n / 10) hdiv
      have hmod : (Char.ofNat (48 + n % 10)).toNat = 48 + n % 10 ∧
          isDigitA (Char.ofNat (48 + n % 10)) = true := by
        have : n % 10 < 10 := Nat.mod_lt _ (by omega)
        interval_cases h : n % 10 <;> exact ⟨by decide, by decide⟩
      have heq : natDigitsAux (fuel + 1) n =
          natDigitsAux fuel (n / 10) ++ [Char.ofNat (48 + n % 10)] := by
        simp [natDigitsAux, h10]
      refine ⟨by simp [heq], ?_, ?_⟩
      · intro c hc
        rw [heq] at hc
        rcases List.mem_append.mp hc with hc | hc
        · exact hall c hc
        · rcases List.mem_singleton.mp hc with rfl
          exact hmod.2
      · rw [heq]
        unfold digitsVal
        rw [List.foldl_append]
        have : digitsVal (natDigitsAux fuel (n / 10)) = n / 10 := hval
        unfold digitsVal at this
        rw [this]
        simp only [List.foldl_cons, List.foldl_nil, hmod.1]
        omega

/-- `renderNat` properties. -/
lemma renderNat_spec (n : Nat) :
    renderNat n ≠ [] ∧ (∀ c ∈ renderNat n, isDigitA c = true) ∧
      digitsVal (renderNat n) = n :=
  natDigitsAux_spec (n + 1) n (by omega)

/-- Parsing a rendered natural followed by a comma. -/
lemma parseJNat_renderNat (n : Nat) (tail : List Char) :
    parseJNat (renderNat n ++ ',' :: tail) = some (n, ',' :: tail) := by
  obtain ⟨hne, hall, hval⟩ := renderNat_spec n
  unfold parseJNat
  rw [takeWhile_append_all _ hall, dropWhile_append_all _ hall]
  rw [show (',' :: tail).takeWhile isDigitA = [] from by
      rw [List.takeWhile_cons, if_neg (by decide)],
    show (',' :: tail).dropWhile isDigitA = ',' :: tail from by
      rw [List.dropWhile_cons, if_neg (by decide)]]
  rw [if_neg (by simp [hne])]
  rw [List.append_nil, hval]

/-- Whitespace skipping steps. -/
lemma skipWs_cons_of_ws (c : Char) (l : List Char) (h : jsonWs c = true) :
    skipWs (c :: l) = skipWs l := by
  simp [skipWs, List.dropWhile_cons, h]

/-- Non-whitespace heads stop the skip. -/
lemma skipWs_cons_of_not_ws (c : Char) (l : List Char) (h : jsonWs c = false) :
    skipWs (c :: l) = c :: l := by
  simp [skipWs, List.dropWhile_cons, h]

/-- Expecting the character that is present. -/
lemma expectC_cons_self (ch : Char) (l : List Char) (h : jsonWs ch = false) :
    expectC ch (ch :: l) = some l := by
  unfold expectC
  rw [skipWs_cons_of_not_ws _ _ h]
  simp

/-- Hex digits decode their value. -/
lemma hexVal_hexDigit : ∀ n < 16, hexVal (hexDigit n) = some n := by decide

/-- Reading back an escaped character list: the core escape round trip. -/
lemma jstrAux_escList (cs : List Char) : ∀ (acc rest : List Char),
    jstrAux acc (escList cs ++ '\"' :: rest) = some (⟨acc.reverse ++ cs⟩, rest) := by
  induction cs with
  | nil =>
    intro acc rest
    show jstrAux acc ('\"' :: rest) = some (⟨acc.reverse ++ []⟩, rest)
    rw [List.append_nil, jstrAux.eq_def]
    simp
  | cons c cs ih =>
    intro acc rest
    show jstrAux acc ((escChar c ++ escList cs) ++ '\"' :: rest) = _
    rw [List.append_assoc]
    by_cases h1 : c = '\"'
    · subst h1
      rw [show escChar '\"' = ['\\', '\"'] from by decide]
      simp only [List.cons_append, List.nil_append]
      rw [show jstrAux acc ('\\' :: '\"' :: (escList cs ++ '\"' :: rest)) =
          jstrAux ('\"' :: acc) (escList cs ++ '\"' :: rest) from by
        conv_lhs => rw [jstrAux.eq_def]
        simp]
      rw [ih]
      simp [List.reverse_cons, List.append_assoc]
    by_cases h2 : c = '\\'
    · subst h2
      rw [show escChar '\\' = ['\\', '\\'] from by decide]
      simp only [List.cons_append, List.nil_append]
      rw [show jstrAux acc ('\\' :: '\\' :: (escList cs ++ '\"' :: rest)) =
          jstrAux ('\\' :: acc) (escList cs ++ '\"' :: rest) from by
        conv_lhs => rw [jstrAux.eq_def]
        simp]
      rw [ih]
      simp [List.reverse_cons, List.append_assoc]
    by_cases h3 : c = '\n'
    · subst h3
      rw [show escChar '\n' = ['\\', 'n'] from by decide]
      simp only [List.cons_append, List.nil_append]
      rw [show jstrAux acc ('\\' :: 'n' :: (escList cs ++ '\"' :: rest)) =
          jstrAux ('\n' :: acc) (escList cs ++ '\"' :: rest) from by
        conv_lhs => rw [jstrAux.eq_def]
        simp]
      rw [ih]
      simp [List.reverse_cons, List.append_assoc]
    by_cases h4 : c = '\t'
    · subst h4
      rw [show escChar '\t' = ['\\', 't'] from by decide]
      simp only [List.cons_append, List.nil_append]
      rw [show jstrAux acc ('\\' :: 't' :: (escList cs ++ '\"' :: rest)) =
          jstrAux ('\t' :: acc) (escList cs ++ '\"' :: rest) from by
        conv_lhs => rw [jstrAux.eq_def]
        simp]
      rw [ih]
      simp [List.reverse_cons, List.append_assoc]
    by_cases h5 : c = '\r'
    · subst h5
      rw [show escChar '\r' = ['\\', 'r'] from by decide]
      simp only [List.cons_append, List.nil_append]
      rw [show jstrAux acc ('\\' :: 'r' :: (escList cs ++ '\"' :: rest)) =
          jstrAux ('\r' :: acc) (escList cs ++ '\"' :: rest) from by
        conv_lhs => rw [jstrAux.eq_def]
        simp]
      rw [ih]
      simp [List.reverse_cons, List.append_assoc]
    by_cases h6 : c = '\x08'
    · subst h6
      rw [show escChar '\x08' = ['\\', 'b'] from by decide]
      simp only [List.cons_append, List.nil_append]
      rw [show jstrAux acc ('\\' :: 'b' :: (escList cs ++ '\"' :: rest)) =
          jstrAux ('\x08' :: acc) (escList cs ++ '\"' :: rest) from by
        conv_lhs => rw [jstrAux.eq_def]
        simp]
      rw [ih]
      simp [List.reverse_cons, List.append_assoc]
    by_cases h7 : c = '\x0c'
    · subst h7
      rw [show escChar '\x0c' = ['\\', 'f'] from by decide]
      simp only [List.cons_append, List.nil_append]
      rw [show jstrAux acc ('\\' :: 'f' :: (escList cs ++ '\"' :: rest)) =
          jstrAux ('\x0c' :: acc) (escList cs ++ '\"' :: rest) from by
        conv_lhs => rw [jstrAux.eq_def]
        simp]
      rw [ih]
      simp [List.reverse_cons, List.append_assoc]
    by_cases h8 : c.toNat < 32
    · rw [show escChar c = ['\\', 'u', '0', '0', hexDigit (c.toNat / 16),
          hexDigit (c.toNat % 16)] from by
        simp [escChar, h1, h2, h3, h4, h5, h6, h7, h8]]
      simp only [List.cons_append, List.nil_append]
      have hv1 : hexVal (hexDigit (c.toNat / 16)) = some (c.toNat / 16) :=
        hexVal_hexDigit _ (by omega)
      have hv2 : hexVal (hexDigit (c.toNat % 16)) = some (c.toNat % 16) :=
        hexVal_hexDigit _ (Nat.mod_lt _ (by omega))
      rw [show jstrAux acc ('\\' :: 'u' :: '0' :: '0' :: hexDigit (c.toNat / 16) ::
          hexDigit (c.toNat % 16) :: (escList cs ++ '\"' :: rest)) =
          jstrAux (Char.ofNat (((0 * 16 + 0) * 16 + c.toNat / 16) * 16 + c.toNat % 16) :: acc)
            (escList cs ++ '\"' :: rest) from by
        conv_lhs => rw [jstrAux.eq_def]
        simp [hv1, hv2, show hexVal ('0' : Char) = some 0 from by decide]]
      rw [show ((0 * 16 + 0) * 16 + c.toNat / 16) * 16 + c.toNat % 16 = c.toNat from by omega,
        Char.ofNat_toNat, ih]
      simp [List.reverse_cons, List.append_assoc]
    · rw [show escChar c = [c] from by
        simp [escChar, h1, h2, h3, h4, h5, h6, h7, h8]]
      simp only [List.cons_append, List.nil_append]
      cases hX : escList cs ++ '\"' :: rest with
      | nil => simp at hX
      | cons x xs =>
        rw [show jstrAux acc (c :: x :: xs) = jstrAux (c :: acc) (x :: xs) from by
          conv_lhs => rw [jstrAux.eq_def]
          simp [h1, h2]]
        rw [← hX, ih]
        simp [List.reverse_cons, List.append_assoc]

/-- Round trip for one JSON string literal. -/
lemma parseJString_jsonStr (s : String) (rest : List Char) :
    parseJString (jsonStr s ++ rest) = some (s, rest) := by
  rw [show jsonStr s ++ rest = '"' :: (escList s.data ++ '"' :: rest) from by
    simp [jsonStr, List.append_assoc]]
  rw [show parseJString ('"' :: (escList s.data ++ '"' :: rest)) =
      jstrAux [] (escList s.data ++ '"' :: rest) from by simp [parseJString]]
  rw [jstrAux_escList]
  rfl

/-- Digits are not JSON whitespace. -/
lemma digit_not_ws (c : Char) (h : isDigitA c = true) : jsonWs c = false := by
  unfold isDigitA at h
  rw [Bool.and_eq_true] at h
  have h1 : '0' ≤ c := of_decide_eq_true h.1
  have e1 : ¬ c = ' ' := fun e => absurd h1 (by subst e; decide)
  have e2 : ¬ c = '\t' := fun e => absurd h1 (by subst e; decide)
  have e3 : ¬ c = '\n' := fun e => absurd h1 (by subst e; decide)
  have e4 : ¬ c = '\r' := fun e => absurd h1 (by subst e; decide)
  simp [jsonWs, e1, e2, e3, e4]

/-- `skipWs` is inert on a string literal head. -/
lemma skipWs_jsonStr_append (s : String) (t : List Char) :
    skipWs (jsonStr s ++ t) = jsonStr s ++ t := by
  have h : jsonStr s ++ t = '"' :: (escList s.data ++ ('"' :: t)) := by
    simp [jsonStr, List.append_assoc]
  rw [h, skipWs_cons_of_not_ws _ _ (by decide)]

/-- `skipWs` is inert on a rendered natural. -/
lemma skipWs_renderNat_append (n : Nat) (t : List Char) :
    skipWs (renderNat n ++ t) = renderNat n ++ t := by
  obtain ⟨hne, hall, -⟩ := renderNat_spec n
  cases hd : renderNat n with
  | nil => exact absurd hd hne
  | cons c cs =>
    rw [List.cons_append]
    exact skipWs_cons_of_not_ws _ _
      (digit_not_ws c (hall c (by rw [hd]; exact List.mem_cons_self ..)))

/-- A key fragment parses to its value position. -/
lemma parseKeyed_frag (key : String) (tail : List Char) :
    parseKeyed key (kvFrag key ++ tail) = some (' ' :: tail) := by
  unfold parseKeyed kvFrag
  rw [show (jsonStr key ++ [':', ' ']) ++ tail = jsonStr key ++ (':' :: ' ' :: tail) from by
    simp [List.append_assoc]]
  rw [skipWs_jsonStr_append, parseJString_jsonStr]
  simp only [Option.pure_def, Option.bind_eq_bind, Option.some_bind]
  rw [if_pos (trivial : True)]
  exact expectC_cons_self ':' (' ' :: tail) (by decide)

/-- Leading member whitespace is absorbed by the key parser. -/
lemma parseKeyed_ws3 (key : String) (l : List Char) :
    parseKeyed key ('\n' :: ' ' :: ' ' :: l) = parseKeyed key l := by
  unfold parseKeyed
  rw [skipWs_cons_of_ws _ _ (by decide), skipWs_cons_of_ws _ _ (by decide),
    skipWs_cons_of_ws _ _ (by decide)]

/-- One string member plus its trailing comma. -/
lemma parseStrField_frag (key v : String) (tail : List Char) :
    parseStrField key (kvFrag key ++ (jsonStr v ++ (',' :: tail))) = some (v, tail) := by
  unfold parseStrField
  rw [parseKeyed_frag]
  simp only [Option.pure_def, Option.bind_eq_bind, Option.some_bind]
  rw [skipWs_cons_of_ws _ _ (by decide), skipWs_jsonStr_append, parseJString_jsonStr]
  simp only [Option.pure_def, Option.bind_eq_bind, Option.some_bind]
  rw [expectC_cons_self _ _ (by decide)]
  rfl

/-- Leading member whitespace, string member. -/
lemma parseStrField_ws3 (key : String) (l : List Char) :
    parseStrField key ('\n' :: ' ' :: ' ' :: l) = parseStrField key l := by
  unfold parseStrField
  rw [parseKeyed_ws3]

/-- One natural member plus its trailing comma. -/
lemma parseNatField_frag (key : String) (n : Nat) (tail : List Char) :
    parseNatField key (kvFrag key ++ (renderNat n ++ (',' :: tail))) = some (n, tail) := by
  unfold parseNatField
  rw [parseKeyed_frag]
  simp only [Option.pure_def, Option.bind_eq_bind, Option.some_bind]
  rw [skipWs_cons_of_ws _ _ (by decide), skipWs_renderNat_append, parseJNat_renderNat]
  simp only [Option.pure_def, Option.bind_eq_bind, Option.some_bind]
  rw [expectC_cons_self _ _ (by decide)]
  rfl

/-- Leading member whitespace, natural member. -/
lemma parseNatField_ws3 (key : String) (l : List Char) :
    parseNatField key ('\n' :: ' ' :: ' ' :: l) = parseNatField key l := by
  unfold parseNatField
  rw [parseKeyed_ws3]

/-- A string literal is never empty. -/
lemma jsonStr_length_pos (s : String) : 1 ≤ (jsonStr s).length := by
  simp [jsonStr]

/-- The item count is bounded by the rendered length. -/
lemma length_le_intercalate (ps : List String) :
    ps.length ≤ (intercalateL itemsSep (ps.map jsonStr)).length := by
  induction ps with
  | nil => simp [intercalateL]
  | cons p ps ih =>
    cases ps with
    | nil =>
      simp only [List.map_cons, List.map_nil, intercalateL, List.length_cons, List.length_nil]
      exact jsonStr_length_pos p
    | cons q qs =>
      rw [show intercalateL itemsSep ((p :: q :: qs).map jsonStr) =
          jsonStr p ++ itemsSep ++ intercalateL itemsSep ((q :: qs).map jsonStr) from rfl]
      have h1 := jsonStr_length_pos p
      have h2 := ih
      simp only [List.length_cons] at h2 ⊢
      simp only [List.length_append]
      omega

/-- `skipWs` is inert on a rendered non-empty item list. -/
lemma skipWs_mid_append (q : String) (qs : List String) (D : List Char) :
    skipWs (intercalateL itemsSep ((q :: qs).map jsonStr) ++ D) =
      intercalateL itemsSep ((q :: qs).map jsonStr) ++ D := by
  cases qs with
  | nil =>
    show skipWs (jsonStr q ++ D) = jsonStr q ++ D
    exact skipWs_jsonStr_append q D
  | cons w ws =>
    rw [show intercalateL itemsSep ((q :: w :: ws).map jsonStr) ++ D =
        jsonStr q ++ (itemsSep ++ (intercalateL itemsSep ((w :: ws).map jsonStr) ++ D)) from by
      simp [intercalateL, List.append_assoc]]
    exact skipWs_jsonStr_append _ _

/-- Parsing the items of a non-empty rendered array body. -/
lemma parseItems_run (ps : List String) : ps ≠ [] → ∀ (fuel : Nat), ps.length ≤ fuel →
    ∀ (tail : List Char),
    parseItems fuel
      (intercalateL itemsSep (ps.map jsonStr) ++ ('\n' :: ' ' :: ' ' :: ']' :: tail)) =
      some (ps, tail) := by
  induction ps with
  | nil => intro h; exact absurd rfl h
  | cons p ps ih =>
    intro _ fuel hf tail
    cases fuel with
    | zero => simp at hf
    | succ fuel =>
      cases ps with
      | nil =>
        rw [show intercalateL itemsSep ([p].map jsonStr) = jsonStr p from rfl]
        rw [show parseItems (fuel + 1)
            (jsonStr p ++ ('\n' :: ' ' :: ' ' :: ']' :: tail)) =
            (do
              let (s, r) ← parseJString (jsonStr p ++ ('\n' :: ' ' :: ' ' :: ']' :: tail))
              match skipWs r with
              | c :: r2 =>
                if c = ',' then
                  match parseItems fuel (skipWs r2) with
                  | some (ss, r3) => some (s :: ss, r3)
                  | none => none
                else if c = ']' then some ([s], r2)
                else none
              | [] => none) from by
          conv_lhs => rw [parseItems.eq_def]]
        rw [parseJString_jsonStr]
        simp only [Option.pure_def, Option.bind_eq_bind, Option.some_bind]
        rw [skipWs_cons_of_ws _ _ (by decide), skipWs_cons_of_ws _ _ (by decide),
          skipWs_cons_of_ws _ _ (by decide), skipWs_cons_of_not_ws _ _ (by decide)]
        dsimp only
        rw [if_neg (by decide), if_pos (show (']' : Char) = ']' from rfl)]
      | cons q qs =>
        rw [show intercalateL itemsSep ((p :: q :: qs).map jsonStr) ++
            ('\n' :: ' ' :: ' ' :: ']' :: tail) =
            jsonStr p ++ (',' :: '\n' :: ' ' :: ' ' :: ' ' :: ' ' ::
              (intercalateL itemsSep ((q :: qs).map jsonStr) ++
                ('\n' :: ' ' :: ' ' :: ']' :: tail))) from by
          simp [intercalateL, itemsSep, List.append_assoc]]
        rw [show parseItems (fuel + 1)
            (jsonStr p ++ (',' :: '\n' :: ' ' :: ' ' :: ' ' :: ' ' ::
              (intercalateL itemsSep ((q :: qs).map jsonStr) ++
                ('\n' :: ' ' :: ' ' :: ']' :: tail)))) =
            (do
              let (s, r) ← parseJString (jsonStr p ++ (',' :: '\n' :: ' ' :: ' ' :: ' ' :: ' ' ::
                (intercalateL itemsSep ((q :: qs).map jsonStr) ++
                  ('\n' :: ' ' :: ' ' :: ']' :: tail))))
              match skipWs r with
              | c :: r2 =>
                if c = ',' then
                  match parseItems fuel (skipWs r2) with
                  | some (ss, r3) => some (s :: ss, r3)
                  | none => none
                else if c = ']' then some ([s], r2)
                else none
              | [] => none) from by
          conv_lhs => rw [parseItems.eq_def]]
        rw [parseJString_jsonStr]
        simp only [Option.pure_def, Option.bind_eq_bind, Option.some_bind]
        rw [skipWs_cons_of_not_ws _ _ (by decide)]
        dsimp only
        rw [if_pos (show (',' : Char) = ',' from rfl)]
        rw [skipWs_cons_of_ws _ _ (by decide), skipWs_cons_of_ws _ _ (by decide),
          skipWs_cons_of_ws _ _ (by decide), skipWs_cons_of_ws _ _ (by decide),
          skipWs_cons_of_ws _ _ (by decide)]
        rw [skipWs_mid_append]
        rw [ih (by simp) fuel (by simpa using Nat.le_of_succ_le_succ hf) tail]

/-- Array round trip: parsing a rendered patents array. -/
lemma parseStrArray_renderPatents (ps : List String) (X : List Char) :
    parseStrArray (renderPatents ps ++ X) = some (ps, X) := by
  cases ps with
  | nil =>
    show parseStrArray ('[' :: ']' :: X) = some ([], X)
    unfold parseStrArray
    rw [expectC_cons_self _ _ (by decide)]
    simp only [Option.pure_def, Option.bind_eq_bind, Option.some_bind]
    rw [skipWs_cons_of_not_ws _ _ (by decide)]
    dsimp only
    rw [if_pos (show (']' : Char) = ']' from rfl)]
  | cons p ps' =>
    rw [show renderPatents (p :: ps') ++ X =
        '[' :: '\n' :: ' ' :: ' ' :: ' ' :: ' ' ::
          (intercalateL itemsSep ((p :: ps').map jsonStr) ++ ('\n' :: ' ' :: ' ' :: ']' :: X))
        from by simp [renderPatents, List.append_assoc]]
    unfold parseStrArray
    rw [expectC_cons_self _ _ (by decide)]
    simp only [Option.pure_def, Option.bind_eq_bind, Option.some_bind]
    rw [skipWs_cons_of_ws _ _ (by decide), skipWs_cons_of_ws _ _ (by decide),
      skipWs_cons_of_ws _ _ (by decide), skipWs_cons_of_ws _ _ (by decide),
      skipWs_cons_of_ws _ _ (by decide), skipWs_mid_append]
    have hsplit : ∃ T, intercalateL itemsSep ((p :: ps').map jsonStr) ++
        ('\n' :: ' ' :: ' ' :: ']' :: X) = jsonStr p ++ T := by
      cases ps' with
      | nil => exact ⟨_, rfl⟩
      | cons w ws =>
        refine ⟨itemsSep ++ (intercalateL itemsSep ((w :: ws).map jsonStr) ++
          ('\n' :: ' ' :: ' ' :: ']' :: X)), ?_⟩
        simp [intercalateL, List.append_assoc]
    obtain ⟨T, hT⟩ := hsplit
    have hcons : intercalateL itemsSep ((p :: ps').map jsonStr) ++
        ('\n' :: ' ' :: ' ' :: ']' :: X) = '"' :: (escList p.data ++ ('"' :: T)) := by
      rw [hT]
      simp [jsonStr, List.append_assoc]
    rw [hcons]
    dsimp only
    rw [if_neg (by decide)]
    rw [← hcons]
    rw [parseItems_run (p :: ps') (by simp) _ ?hfuel X]
    case hfuel =>
      have h1 := length_le_intercalate (p :: ps')
      simp only [List.length_append, List.length_cons] at h1 ⊢
      omega

/-- `skipWs` is inert on a rendered array. -/
lemma skipWs_renderPatents_append (ps : List String) (t : List Char) :
    skipWs (renderPatents ps ++ t) = renderPatents ps ++ t := by
  cases ps with
  | nil => exact skipWs_cons_of_not_ws _ _ (by decide)
  | cons p ps' =>
    rw [show renderPatents (p :: ps') ++ t =
        '[' :: ('\n' :: ' ' :: ' ' :: ' ' :: ' ' ::
          (intercalateL itemsSep ((p :: ps').map jsonStr) ++ ('\n' :: ' ' :: ' ' :: ']' :: t)))
        from by simp [renderPatents, List.append_assoc]]
    rw [skipWs_cons_of_not_ws _ _ (by decide)]

/-- One array member plus its trailing comma. -/
lemma parseArrField_frag (key : String) (ps : List String) (tail : List Char) :
    parseArrField key (kvFrag key ++ (renderPatents ps ++ (',' :: tail))) = some (ps, tail) := by
  unfold parseArrField
  rw [parseKeyed_frag]
  simp only [Option.pure_def, Option.bind_eq_bind, Option.some_bind]
  rw [skipWs_cons_of_ws _ _ (by decide), skipWs_renderPatents_append,
    parseStrArray_renderPatents]
  simp only [Option.pure_def, Option.bind_eq_bind, Option.some_bind]
  rw [expectC_cons_self _ _ (by decide)]
  rfl

/-- Leading member whitespace, array member. -/
lemma parseArrField_ws3 (key : String) (l : List Char) :
    parseArrField key ('\n' :: ' ' :: ' ' :: l) = parseArrField key l := by
  unfold parseArrField
  rw [parseKeyed_ws3]

/-- C9. Round trip: parsing the JSON metadata block appended by the
Record Writer at the end of a record's output file reproduces the
record's name, title, url, patents list, and the image, diagram and
reference counts (plus the timestamp) exactly. -/
theorem claim_C9_metadata_roundtrip (r : Record) :
    parseMetadata (renderMetadata r) =
      some (r.name, r.title, r.url, r.patents, r.images.length,
        r.diagrams.length, r.references.length, r.extracted_at) := by
  unfold parseMetadata renderMetadata
  simp only [memberSep, List.cons_append, List.nil_append, List.append_assoc]
  rw [expectC_cons_self _ _ (by decide)]
  dsimp only
  rw [parseStrField_ws3, parseStrField_frag]
  dsimp only
  rw [parseStrField_ws3, parseStrField_frag]
  dsimp only
  rw [parseStrField_ws3, parseStrField_frag]
  dsimp only
  rw [parseArrField_ws3, parseArrField_frag]
  dsimp only
  rw [parseNatField_ws3, parseNatField_frag]
  dsimp only
  rw [parseNatField_ws3, parseNatField_frag]
  dsimp only
  rw [parseNatField_ws3, parseNatField_frag]
  dsimp only
  rw [parseKeyed_ws3, parseKeyed_frag]
  dsimp only
  rw [skipWs_cons_of_ws _ _ (by decide), skipWs_jsonStr_append, parseJString_jsonStr]
  dsimp only
  rw [show expectC '\x7d' ('\n' :: '\x7d' :: []) = some [] from by decide]
  rfl
